import Mathlib

/-
Verification of the EPUB fixer (epub_fixer.py) of KimmyXYC/EPUB-Converter.

The Python module is shallowly embedded here.  Python strings are modelled as
`String`/`List Char`; the Python operations used by the fixer are modelled by
executable functions on character lists:

* `sub in s`            → `containsL sub s.data`  (substring containment)
* `s.lower()`           → `lowerL` (ASCII lowering; every token the fixer
                          matches is ASCII, so `Char.toLower` is faithful)
* `s.strip()`           → `stripList` (whitespace stripping)
* `s.split(c)`          → `splitList c`
* `sep.join(parts)`     → `joinSep sep.data parts`
* `s.replace(old, new)` → `replaceAll old new` (left-to-right, non-overlapping)
-/

/-- Boolean prefix test on character lists (`List.isPrefixOf` with `=`). -/
def isPrefixL : List Char → List Char → Bool
  | [], _ => true
  | _ :: _, [] => false
  | a :: as, b :: bs => if a = b then isPrefixL as bs else false

/-- Python's substring test `sub in l`. -/
def containsL (sub : List Char) : List Char → Bool
  | [] => sub.isEmpty
  | b :: bs => isPrefixL sub (b :: bs) || containsL sub bs

/-- Python's `str.lower()` on character lists (ASCII). -/
def lowerL (l : List Char) : List Char := l.map Char.toLower

/-- Python's `str.strip()` on character lists: drop whitespace on both ends. -/
def stripList (l : List Char) : List Char :=
  ((l.dropWhile Char.isWhitespace).reverse.dropWhile Char.isWhitespace).reverse

/-- Python's `str.split(sep)` for a single-character separator.
`splitList c []` is `[[]]`, matching `"".split(c) == [""]`. -/
def splitList (sep : Char) : List Char → List (List Char)
  | [] => [[]]
  | c :: t =>
    let r := splitList sep t
    if c = sep then [] :: r
    else (c :: r.headD []) :: r.tail

/-- Python's `sep.join(parts)` on character lists. -/
def joinSep (sep : List Char) : List (List Char) → List Char
  | [] => []
  | [r] => r
  | r :: rs => r ++ sep ++ joinSep sep rs

theorem isPrefixL_iff : ∀ s l : List Char, isPrefixL s l = true ↔ s <+: l
  | [], l => by simp [isPrefixL]
  | a :: as, [] => by simp [isPrefixL]
  | a :: as, b :: bs => by
    simp only [isPrefixL, List.cons_prefix_cons]
    split
    · next h => simp only [h, true_and]; exact isPrefixL_iff as bs
    · next h => simp [h]

theorem containsL_iff : ∀ s l : List Char, containsL s l = true ↔ s <:+: l
  | s, [] => by simp [containsL, List.isEmpty_iff]
  | s, b :: bs => by
    simp only [containsL, Bool.or_eq_true, isPrefixL_iff, containsL_iff s bs,
      List.infix_cons_iff]

theorem containsL_eq_false_iff {s l : List Char} :
    containsL s l = false ↔ ¬ s <:+: l := by
  rw [← containsL_iff]
  cases containsL s l <;> simp

/- Tokens matched by the fixer (from `_fix_style_attribute` and
`_fix_css_content`). -/

def wmTok : List Char := "writing-mode".data
def vertTok : List Char := "vertical".data
def tbTok : List Char := "tb".data
def toTok : List Char := "text-orientation".data
def webkitTok : List Char := "-webkit-writing-mode".data
def epubTok : List Char := "-epub-writing-mode".data
def htbRuleTok : List Char := "writing-mode: horizontal-tb".data
def htbTok : List Char := "horizontal-tb".data
def sepTok : List Char := "; ".data

/-- One rule of `_fix_style_attribute`'s loop body: `none` models `continue`
without appending (the rule is dropped), `some r` models appending `r`.
The branch structure mirrors the Python source lines 191-211. -/
def fixRuleL (rule : List Char) : Option (List Char) :=
  let l := lowerL rule
  if containsL wmTok l && (containsL vertTok l || containsL tbTok l) then
    some htbRuleTok
  else if containsL toTok l then none
  else if containsL webkitTok l then none
  else if containsL epubTok l then none
  else some rule

/-- The rule list of `_fix_style_attribute`:
`[s.strip() for s in style.split(';') if s.strip()]`. -/
def splitRulesL (l : List Char) : List (List Char) :=
  ((splitList ';' l).map stripList).filter (fun r => !r.isEmpty)

/-- `EPUBFixer._fix_style_attribute` (epub_fixer.py lines 177-213). -/
def fix_style_attribute (style : String) : String :=
  String.mk (joinSep sepTok ((splitRulesL style.data).filterMap fixRuleL))

example : fix_style_attribute ⟨"writing-mode: vertical-rl; font-size: 14px; color: black;".data⟩
    = ⟨"writing-mode: horizontal-tb; font-size: 14px; color: black".data⟩ := by decide

/- Lemmas about the split / strip / join primitives. -/

theorem splitList_ne_nil (sep : Char) : ∀ l : List Char, splitList sep l ≠ []
  | [] => by simp [splitList]
  | c :: t => by
    simp only [splitList]
    split <;> simp

theorem not_mem_of_mem_splitList {sep : Char} :
    ∀ {l : List Char}, ∀ p ∈ splitList sep l, sep ∉ p
  | [], p, hp => by
    simp only [splitList, List.mem_singleton] at hp
    simp [hp]
  | c :: t, p, hp => by
    simp only [splitList] at hp
    split at hp
    · rcases List.mem_cons.mp hp with h | h
      · simp [h]
      · exact not_mem_of_mem_splitList p h
    · next hc =>
      rcases List.mem_cons.mp hp with h | h
      · subst h
        intro hmem
        rcases List.mem_cons.mp hmem with h' | h'
        · exact hc h'.symm
        · rcases e : splitList sep t with _ | ⟨q, qs⟩
          · exact splitList_ne_nil sep t e
          · have := not_mem_of_mem_splitList q (e ▸ List.mem_cons_self q qs)
            rw [e] at h'
            exact this h'
      · have : p ∈ splitList sep t := by
          rcases e : splitList sep t with _ | ⟨q, qs⟩
          · exact absurd e (splitList_ne_nil sep t)
          · rw [e] at h; exact List.mem_cons_of_mem q h
        exact not_mem_of_mem_splitList p this

theorem splitList_of_not_mem {sep : Char} : ∀ {a : List Char}, sep ∉ a →
    splitList sep a = [a]
  | [], _ => rfl
  | c :: a', h => by
    have hc : ¬ c = sep := fun e => h (e ▸ List.mem_cons_self c a')
    have ha : sep ∉ a' := fun e => h (List.mem_cons_of_mem c e)
    simp [splitList, hc, splitList_of_not_mem ha]

theorem splitList_append_cons {sep : Char} : ∀ {a : List Char}, sep ∉ a →
    ∀ b : List Char, splitList sep (a ++ sep :: b) = a :: splitList sep b
  | [], _, b => by simp [splitList]
  | c :: a', h, b => by
    have hc : ¬ c = sep := fun e => h (e ▸ List.mem_cons_self c a')
    have ha : sep ∉ a' := fun e => h (List.mem_cons_of_mem c e)
    simp [splitList, hc, splitList_append_cons ha b]

theorem dropWhile_head_false {p : Char → Bool} :
    ∀ {x c t}, List.dropWhile p x = c :: t → p c = false
  | [], c, t, h => by simp at h
  | a :: x', c, t, h => by
    rw [List.dropWhile_cons] at h
    split at h
    · exact dropWhile_head_false h
    · next ha => cases h; simpa using ha

theorem stripList_eq (l : List Char) :
    stripList l = List.rdropWhile Char.isWhitespace (l.dropWhile Char.isWhitespace) := rfl

theorem stripList_idem (l : List Char) : stripList (stripList l) = stripList l := by
  rw [stripList_eq, stripList_eq]
  have hdrop : (List.rdropWhile Char.isWhitespace
      (l.dropWhile Char.isWhitespace)).dropWhile Char.isWhitespace
      = List.rdropWhile Char.isWhitespace (l.dropWhile Char.isWhitespace) := by
    rcases e : l.dropWhile Char.isWhitespace with _ | ⟨c, t⟩
    · simp [List.rdropWhile]
    · have hc := dropWhile_head_false e
      have hpre := List.rdropWhile_prefix Char.isWhitespace (c :: t)
      rcases e2 : List.rdropWhile Char.isWhitespace (c :: t) with _ | ⟨d, r⟩
      · simp
      · rw [e2] at hpre
        have hd : d = c := (List.cons_prefix_cons.mp hpre).1
        subst hd
        simp [List.dropWhile_cons, hc]
  rw [hdrop, List.rdropWhile_idempotent]

theorem stripList_within (l : List Char) : stripList l <:+: l := by
  rw [stripList_eq]
  exact (List.rdropWhile_prefix _ _).isInfix.trans (List.dropWhile_suffix _).isInfix

theorem mem_of_mem_stripList {c : Char} {l : List Char} (h : c ∈ stripList l) : c ∈ l :=
  (stripList_within l).subset h

theorem stripList_cons_space (h : List Char) : stripList (' ' :: h) = stripList h := by
  have : Char.isWhitespace ' ' = true := by decide
  simp [stripList, List.dropWhile_cons, this]

/-- Every rule that `_fix_style_attribute` works on is nonempty, stripped,
and free of the separator character. -/
theorem splitRulesL_good {l : List Char} :
    ∀ r ∈ splitRulesL l, r ≠ [] ∧ stripList r = r ∧ ';' ∉ r := by
  intro r hr
  simp only [splitRulesL, List.mem_filter, List.mem_map] at hr
  obtain ⟨⟨p, hp, hpr⟩, hne⟩ := hr
  subst hpr
  refine ⟨by simpa [List.isEmpty_iff] using hne, stripList_idem p, ?_⟩
  intro hmem
  exact not_mem_of_mem_splitList p hp (mem_of_mem_stripList hmem)

theorem mapStrip_splitList_space (J : List Char) :
    (splitList ';' (' ' :: J)).map stripList = (splitList ';' J).map stripList := by
  rcases e : splitList ';' J with _ | ⟨h, t⟩
  · exact absurd e (splitList_ne_nil ';' J)
  · have hsp : ¬ (' ' = ';') := by decide
    simp [splitList, e, hsp, stripList_cons_space]

/-- Round trip: splitting the joined rule list gives back the rules, when every
rule is nonempty, stripped and separator-free. -/
theorem splitRulesL_joinSep : ∀ {rs : List (List Char)},
    (∀ r ∈ rs, r ≠ [] ∧ stripList r = r ∧ ';' ∉ r) →
    splitRulesL (joinSep sepTok rs) = rs
  | [], _ => by simp [joinSep, splitRulesL, splitList, stripList]
  | [r], h => by
    obtain ⟨hne, hstr, hsep⟩ := h r (List.mem_singleton_self r)
    simp [joinSep, splitRulesL, splitList_of_not_mem hsep, hstr, hne,
      List.isEmpty_iff]
  | r :: r2 :: rest, h => by
    obtain ⟨hne, hstr, hsep⟩ := h r (List.mem_cons_self r _)
    have hrec := @splitRulesL_joinSep (r2 :: rest)
      (fun q hq => h q (List.mem_cons_of_mem r hq))
    have hjoin : joinSep sepTok (r :: r2 :: rest)
        = r ++ ';' :: ' ' :: joinSep sepTok (r2 :: rest) := by
      simp [joinSep, sepTok, List.append_assoc]
    rw [hjoin]
    unfold splitRulesL
    rw [splitList_append_cons hsep, List.map_cons]
    have := mapStrip_splitList_space (joinSep sepTok (r2 :: rest))
    rw [this, hstr, List.filter_cons]
    have : (!r.isEmpty) = true := by simpa [List.isEmpty_iff] using hne
    rw [if_pos this]
    unfold splitRulesL at hrec
    rw [hrec]

/- Facts about the per-rule rewrite. -/

theorem fixRuleL_cases {r v : List Char} (h : fixRuleL r = some v) :
    v = htbRuleTok ∨ v = r := by
  simp only [fixRuleL] at h
  split at h
  · exact Or.inl (Option.some.inj h).symm
  · split at h
    · cases h
    · split at h
      · cases h
      · split at h
        · cases h
        · exact Or.inr (Option.some.inj h).symm

theorem fixRuleL_fixpoint {r v : List Char} (h : fixRuleL r = some v) :
    fixRuleL v = some v := by
  rcases fixRuleL_cases h with hv | hv
  · subst hv; decide
  · subst hv
    simp only [fixRuleL] at h ⊢
    split at h
    · next h1 => cases h; rw [if_pos h1]
    · next h1 =>
      split at h
      · cases h
      · next h2 =>
        split at h
        · cases h
        · next h3 =>
          split at h
          · cases h
          · next h4 => simp [h1, h2, h3, h4]

theorem goodRule_htb : htbRuleTok ≠ [] ∧ stripList htbRuleTok = htbRuleTok ∧ ';' ∉ htbRuleTok := by
  decide

theorem filterMap_fixRuleL_self : ∀ {l : List (List Char)},
    (∀ v ∈ l, fixRuleL v = some v) → l.filterMap fixRuleL = l
  | [], _ => rfl
  | v :: l, h => by
    rw [List.filterMap_cons, h v (List.mem_cons_self v l),
      filterMap_fixRuleL_self (fun q hq => h q (List.mem_cons_of_mem v hq))]

/-- The rewritten rule list of a declaration. -/
def outRules (s : String) : List (List Char) := (splitRulesL s.data).filterMap fixRuleL

theorem outRules_good {s : String} :
    ∀ v ∈ outRules s, v ≠ [] ∧ stripList v = v ∧ ';' ∉ v := by
  intro v hv
  obtain ⟨r, hr, hfr⟩ := List.mem_filterMap.mp hv
  rcases fixRuleL_cases hfr with hv' | hv'
  · subst hv'; exact goodRule_htb
  · subst hv'; exact splitRulesL_good _ hr

theorem outRules_fixpoint {s : String} : ∀ v ∈ outRules s, fixRuleL v = some v := by
  intro v hv
  obtain ⟨r, _, hfr⟩ := List.mem_filterMap.mp hv
  exact fixRuleL_fixpoint hfr

theorem data_fix_style_attribute (s : String) :
    (fix_style_attribute s).data = joinSep sepTok (outRules s) := rfl

theorem splitRulesL_fix_style_attribute (s : String) :
    splitRulesL (fix_style_attribute s).data = outRules s := by
  rw [data_fix_style_attribute]
  exact splitRulesL_joinSep (outRules_good)

/-- C10: `_fix_style_attribute` is idempotent. -/
theorem fix_style_attribute_idem (s : String) :
    fix_style_attribute (fix_style_attribute s) = fix_style_attribute s := by
  show String.mk (joinSep sepTok
      ((splitRulesL (fix_style_attribute s).data).filterMap fixRuleL))
    = fix_style_attribute s
  rw [splitRulesL_fix_style_attribute, filterMap_fixRuleL_self (outRules_fixpoint)]
  rfl

theorem infix_joinSep {x : List Char} (sep : List Char) :
    ∀ {ps : List (List Char)}, x ∈ ps → x <:+: joinSep sep ps
  | [], h => absurd h (List.not_mem_nil x)
  | [p], h => by rcases List.mem_singleton.mp h with rfl; exact List.infix_rfl
  | p :: q :: rest, h => by
    rcases List.mem_cons.mp h with rfl | h'
    · show x <:+: x ++ sep ++ joinSep sep (q :: rest)
      rw [List.append_assoc]
      exact (List.prefix_append x _).isInfix
    · have hrec := infix_joinSep sep h'
      show x <:+: p ++ sep ++ joinSep sep (q :: rest)
      exact hrec.trans (List.suffix_append _ _).isInfix

/-- Spec-side Style-Declaration Rewriter, written from the spec's four rules
(§4.1): rule 1 replaces a vertical writing-mode rule wholesale, rule 2 drops
`text-orientation`, rule 3 drops the vendor-prefixed writing-mode rules not
already handled, rule 4 keeps everything else; kept rules are rejoined with
`"; "` preserving order. -/
def ruleSpec (rule : List Char) : Option (List Char) :=
  let l := lowerL rule
  if containsL wmTok l && (containsL vertTok l || containsL tbTok l) then
    some htbRuleTok
  else if containsL toTok l then none
  else if containsL webkitTok l || containsL epubTok l then none
  else some rule

/-- Spec-side whole-declaration rewrite (the claim's description of 4.1). -/
def styleRewriteSpec (s : String) : String :=
  String.mk (joinSep sepTok
    ((((splitList ';' s.data).map stripList).filter (fun r => !r.isEmpty)).filterMap ruleSpec))

theorem fixRuleL_eq_ruleSpec (r : List Char) : fixRuleL r = ruleSpec r := by
  simp only [fixRuleL, ruleSpec, Bool.or_eq_true]
  split_ifs <;> simp_all

/-- C5: the implementation's declaration rewriter coincides with the spec's
per-rule, case-insensitive, first-match-wins description, and empty input
yields empty output. -/
theorem fix_style_attribute_spec (s : String) :
    fix_style_attribute s = styleRewriteSpec s
    ∧ fix_style_attribute ⟨[]⟩ = ⟨[]⟩ := by
  constructor
  · unfold fix_style_attribute styleRewriteSpec splitRulesL
    rw [List.filterMap_congr (fun a _ => fixRuleL_eq_ruleSpec a)]
  · decide

/-- C4 counterexample: this declaration contains a vertical writing-mode rule,
yet the rewritten declaration still contains the substring "vertical" (inside
the unrelated `background-image` rule, which the fixer keeps verbatim), so the
rewritten declaration does not avoid "vertical" everywhere. -/
theorem C4_counterexample :
    (∃ r ∈ splitRulesL ("writing-mode: vertical-rl; background-image: url(vertical.png)".data),
        containsL wmTok (lowerL r) = true ∧ containsL vertTok (lowerL r) = true)
    ∧ containsL vertTok
        (fix_style_attribute
          ⟨"writing-mode: vertical-rl; background-image: url(vertical.png)".data⟩).data
        = true := by
  decide

/-- C4 (amended): for every declaration containing a vertical writing-mode
rule, the rewritten declaration contains "horizontal-tb", and "vertical" can
survive only inside rules that mention neither a writing-mode property nor
text-orientation (which are kept verbatim). -/
theorem C4_amended (s : String)
    (h : ∃ r ∈ splitRulesL s.data,
        containsL wmTok (lowerL r) = true ∧ containsL vertTok (lowerL r) = true) :
    containsL htbTok (fix_style_attribute s).data = true
    ∧ ∀ r ∈ splitRulesL (fix_style_attribute s).data,
        containsL vertTok (lowerL r) = true →
        containsL wmTok (lowerL r) = false ∧ containsL toTok (lowerL r) = false := by
  obtain ⟨r, hr, hwm, hv⟩ := h
  constructor
  · have hfr : fixRuleL r = some htbRuleTok := by
      simp [fixRuleL, hwm, hv]
    have hmem : htbRuleTok ∈ outRules s := List.mem_filterMap.mpr ⟨r, hr, hfr⟩
    have h1 : htbTok <:+: htbRuleTok := by decide
    have h2 := infix_joinSep sepTok hmem
    rw [data_fix_style_attribute]
    exact (containsL_iff htbTok _).mpr (h1.trans h2)
  · intro q hq hvq
    rw [splitRulesL_fix_style_attribute] at hq
    obtain ⟨p, hp, hfp⟩ := List.mem_filterMap.mp hq
    rcases fixRuleL_cases hfp with rfl | rfl
    · exact absurd hvq (by decide)
    · simp only [fixRuleL] at hfp
      split at hfp
      · next h1 =>
        cases hfp
        exact absurd hvq (by decide)
      · next h1 =>
        split at hfp
        · cases hfp
        · next h2 =>
          split at hfp
          · cases hfp
          · next h3 =>
            split at hfp
            · cases hfp
            · next h4 =>
              refine ⟨?_, by simpa using h2⟩
              cases hw : containsL wmTok (lowerL q)
              · rfl
              · exact absurd (by simp [hw, hvq]) h1

theorem C4_amended_witness :
    containsL htbTok (fix_style_attribute ⟨"writing-mode: vertical-rl".data⟩).data = true
    ∧ ∀ r ∈ splitRulesL (fix_style_attribute ⟨"writing-mode: vertical-rl".data⟩).data,
        containsL vertTok (lowerL r) = true →
        containsL wmTok (lowerL r) = false ∧ containsL toTok (lowerL r) = false :=
  C4_amended ⟨"writing-mode: vertical-rl".data⟩ (by decide)

/- Python's `str.replace`, used by `_fix_css_content`.  `raGo` emits the
output character by character; `skip` counts input characters already consumed
by a replacement that has been emitted. -/

def raGo (old new : List Char) : Nat → List Char → List Char
  | _, [] => []
  | s + 1, _ :: t => raGo old new s t
  | 0, c :: t =>
    if isPrefixL old (c :: t) then new ++ raGo old new (old.length - 1) t
    else c :: raGo old new 0 t

/-- Python's `str.replace(old, new)`: left-to-right, non-overlapping
replacement of every occurrence.  (Python's behaviour for an empty `old`
inserts `new` between all characters; the fixer only ever replaces nonempty
tokens, and for `old = []` we return the input unchanged.) -/
def replaceAll (old new l : List Char) : List Char :=
  match old with
  | [] => l
  | _ :: _ => raGo old new 0 l

theorem raGo_skip (old new : List Char) :
    ∀ (t : List Char) (s : Nat), raGo old new s t = raGo old new 0 (t.drop s)
  | [], s => by cases s <;> simp [raGo]
  | c :: t, 0 => rfl
  | c :: t, s + 1 => by
    rw [show raGo old new (s + 1) (c :: t) = raGo old new s t from rfl,
      raGo_skip old new t s, List.drop_succ_cons]

theorem raGo_zero_cons (old new : List Char) (c : Char) (t : List Char) :
    raGo old new 0 (c :: t)
      = if isPrefixL old (c :: t) then
          new ++ raGo old new 0 (t.drop (old.length - 1))
        else c :: raGo old new 0 t := by
  rw [show raGo old new 0 (c :: t)
      = if isPrefixL old (c :: t) then new ++ raGo old new (old.length - 1) t
        else c :: raGo old new 0 t from rfl,
    raGo_skip old new t (old.length - 1)]

/-- Skipping a block that cannot contain the head of `X`. -/
theorem infix_of_infix_append {X : List Char} (xh : Char) (xt : List Char)
    (hX : X = xh :: xt) :
    ∀ {ys R : List Char}, xh ∉ ys → X <:+: ys ++ R → X <:+: R
  | [], R, _, h => h
  | y :: ys, R, hni, h => by
    subst hX
    rcases List.infix_cons_iff.mp h with hpre | hinf
    · have : xh = y := (List.cons_prefix_cons.mp hpre).1
      exact absurd (this ▸ List.mem_cons_self y ys) hni
    · exact infix_of_infix_append xh xt rfl
        (fun hm => hni (List.mem_cons_of_mem y hm)) hinf

/-- A prefix of the output of `raGo` is a prefix of the input, unless it
contains the head of the replacement text. -/
theorem raGo_prefix_origin (old : List Char) (nh : Char) (nt : List Char) :
    ∀ l Y : List Char, Y <+: raGo old (nh :: nt) 0 l → Y <+: l ∨ nh ∈ Y
  | [], Y => by
    intro h
    rw [show raGo old (nh :: nt) 0 [] = [] from rfl] at h
    exact Or.inl (List.prefix_nil.mp h ▸ List.nil_prefix)
  | c :: t, Y => by
    intro h
    rw [raGo_zero_cons] at h
    split at h
    · rcases Y with _ | ⟨y, Y'⟩
      · exact Or.inl List.nil_prefix
      · have : y = nh := (List.cons_prefix_cons.mp h).1
        exact Or.inr (this ▸ List.mem_cons_self y Y')
    · rcases Y with _ | ⟨y, Y'⟩
      · exact Or.inl List.nil_prefix
      · obtain ⟨hy, hY'⟩ := List.cons_prefix_cons.mp h
        rcases raGo_prefix_origin old nh nt t Y' hY' with h' | h'
        · exact Or.inl (List.cons_prefix_cons.mpr ⟨hy, h'⟩)
        · exact Or.inr (List.mem_cons_of_mem y h')

/-- After replacing `old` by `new`, no occurrence of `old` remains, provided
the heads of `old` and `new` do not occur in the other token. -/
theorem raGo_elim (oh : Char) (ot : List Char) (nh : Char) (nt : List Char)
    (ho : oh ∉ nh :: nt) (hn : nh ∉ oh :: ot) :
    ∀ l : List Char, ¬ (oh :: ot) <:+: raGo (oh :: ot) (nh :: nt) 0 l
  | [] => by
    rw [show raGo (oh :: ot) (nh :: nt) 0 [] = [] from rfl]
    simp
  | c :: t => by
    have ih1 := raGo_elim oh ot nh nt ho hn (t.drop ((oh :: ot).length - 1))
    have ih2 := raGo_elim oh ot nh nt ho hn t
    intro h
    rw [raGo_zero_cons] at h
    split at h
    · exact ih1 (infix_of_infix_append oh ot rfl ho h)
    · next hp =>
      rcases List.infix_cons_iff.mp h with hpre | hinf
      · obtain ⟨hc, hot⟩ := List.cons_prefix_cons.mp hpre
        rcases raGo_prefix_origin (oh :: ot) nh nt t ot hot with h' | h'
        · exact hp ((isPrefixL_iff _ _).mpr (List.cons_prefix_cons.mpr ⟨hc, h'⟩))
        · exact hn (List.mem_cons_of_mem oh h')
      · exact ih2 hinf
termination_by l => l.length
decreasing_by
  · simp; omega
  · simp

/-- Replacement cannot create an occurrence of a token `X` that was absent,
provided the head of `X` does not occur in `new` and the head of `new` does
not occur in `X`. -/
theorem raGo_preserve (old : List Char) (nh xh : Char) (nt xt : List Char)
    (hxn : xh ∉ nh :: nt) (hnx : nh ∉ xh :: xt) :
    ∀ l : List Char, ¬ (xh :: xt) <:+: l → ¬ (xh :: xt) <:+: raGo old (nh :: nt) 0 l
  | [] => by
    intro _ h
    rw [show raGo old (nh :: nt) 0 [] = [] from rfl] at h
    simp at h
  | c :: t => by
    have ih1 := raGo_preserve old nh xh nt xt hxn hnx (t.drop (old.length - 1))
    have ih2 := raGo_preserve old nh xh nt xt hxn hnx t
    intro hl h
    rw [raGo_zero_cons] at h
    split at h
    · have hrest : ¬ (xh :: xt) <:+: t.drop (old.length - 1) := fun hh =>
        hl (hh.trans ((List.drop_suffix _ t).trans (List.suffix_cons c t)).isInfix)
      exact ih1 hrest (infix_of_infix_append xh xt rfl hxn h)
    · have hl' : ¬ (xh :: xt) <:+: t := fun hh => hl (List.infix_cons hh)
      rcases List.infix_cons_iff.mp h with hpre | hinf
      · obtain ⟨hc, hxt⟩ := List.cons_prefix_cons.mp hpre
        rcases raGo_prefix_origin old nh nt t xt hxt with h' | h'
        · exact hl (List.infix_cons_iff.mpr (Or.inl (List.cons_prefix_cons.mpr ⟨hc, h'⟩)))
        · exact hnx (List.mem_cons_of_mem xh h')
      · exact ih2 hl' hinf
termination_by l => l.length
decreasing_by
  · simp; omega
  · simp

/-- If `old` occurs, the replacement text occurs in the output. -/
theorem raGo_intro (oh : Char) (ot new : List Char) :
    ∀ l : List Char, (oh :: ot) <:+: l → new <:+: raGo (oh :: ot) new 0 l
  | [] => by simp
  | c :: t => by
    intro h
    rw [raGo_zero_cons]
    split
    · exact (List.prefix_append new _).isInfix
    · next hp =>
      rcases List.infix_cons_iff.mp h with hpre | hinf
      · exact absurd ((isPrefixL_iff _ _).mpr hpre) hp
      · exact List.infix_cons (raGo_intro oh ot new t hinf)

/-- If `old` does not occur, replacement is the identity. -/
theorem raGo_id (oh : Char) (ot new : List Char) :
    ∀ l : List Char, ¬ (oh :: ot) <:+: l → raGo (oh :: ot) new 0 l = l
  | [] => by simp [raGo]
  | c :: t => by
    intro h
    rw [raGo_zero_cons]
    split
    · next hp => exact absurd ((isPrefixL_iff _ _).mp hp).isInfix h
    · rw [raGo_id oh ot new t (fun hh => h (List.infix_cons hh))]

/- The stylesheet rewriter `_fix_css_content` (epub_fixer.py lines 215-261). -/

def vrlTok : List Char := "vertical-rl".data
def vlrTok : List Char := "vertical-lr".data
def tbrlTok : List Char := "tb-rl".data
def tblrTok : List Char := "tb-lr".data
def cmtOpenTok : List Char := "/* ".data
def cmtCloseTok : List Char := " */".data

/-- Detection condition of the first branch (line 236):
`'writing-mode' in line_lower and ('vertical' in line_lower or 'tb-rl' in
line_lower or 'tb' in line_lower)`. -/
def cssVertLine (l : List Char) : Bool :=
  containsL wmTok l && (containsL vertTok l || containsL tbrlTok l || containsL tbTok l)

/-- One line of `_fix_css_content`'s loop (lines 232-255).  Detection is on
the lowered line; the four `str.replace` calls are chained left to right on
the original line. -/
def fix_css_line (line : List Char) : List Char :=
  let l := lowerL line
  if cssVertLine l then
    replaceAll tblrTok htbTok
      (replaceAll tbrlTok htbTok
        (replaceAll vlrTok htbTok
          (replaceAll vrlTok htbTok line)))
  else if containsL toTok l then cmtOpenTok ++ line ++ cmtCloseTok
  else if (containsL webkitTok l || containsL epubTok l) && containsL vertTok l then
    cmtOpenTok ++ line ++ cmtCloseTok
  else line

/-- `EPUBFixer._fix_css_content`: split on newlines, rewrite each line,
rejoin with newlines.  (The UTF-8 decode guard is not modelled: Lean strings
are always valid text.) -/
def fix_css_content (css : String) : String :=
  String.mk (joinSep ['\n'] ((splitList '\n' css.data).map fix_css_line))

theorem joinSep_cons_cons (sep : List Char) (c : Char) (h : List Char) :
    ∀ t : List (List Char), joinSep sep ((c :: h) :: t) = c :: joinSep sep (h :: t)
  | [] => rfl
  | x :: xs => by simp [joinSep]

theorem joinSep_splitList (sep : Char) : ∀ l : List Char,
    joinSep [sep] (splitList sep l) = l
  | [] => rfl
  | c :: t => by
    rcases e : splitList sep t with _ | ⟨h, r⟩
    · exact absurd e (splitList_ne_nil sep t)
    · by_cases hc : c = sep
      · subst hc
        have : splitList c (c :: t) = [] :: h :: r := by simp [splitList, e]
        rw [this, show joinSep [c] ([] :: h :: r) = c :: joinSep [c] (h :: r) from by
          simp [joinSep], ← e, joinSep_splitList c t]
      · have : splitList sep (c :: t) = (c :: h) :: r := by simp [splitList, hc, e]
        rw [this, joinSep_cons_cons, ← e, joinSep_splitList sep t]

theorem prefix_append_split {α : Type} [DecidableEq α] :
    ∀ {a b Y : List α}, Y <+: a ++ b → Y <+: a ∨ ∃ y, Y = a ++ y ∧ y <+: b
  | [], b, Y, h => Or.inr ⟨Y, by simp, h⟩
  | c :: a', b, Y, h => by
    rcases Y with _ | ⟨y, Y'⟩
    · exact Or.inl List.nil_prefix
    · obtain ⟨hy, hY'⟩ := List.cons_prefix_cons.mp h
      rcases prefix_append_split hY' with h' | ⟨y2, hY2, hy2⟩
      · exact Or.inl (List.cons_prefix_cons.mpr ⟨hy, h'⟩)
      · exact Or.inr ⟨y2, by rw [List.cons_append, ← hY2, hy], hy2⟩

theorem infix_append_split {α : Type} [DecidableEq α] :
    ∀ {a b X : List α}, X <:+: a ++ b →
      X <:+: a ∨ X <:+: b
      ∨ ∃ x1 x2, x1 ≠ [] ∧ x2 ≠ [] ∧ X = x1 ++ x2 ∧ x1 <:+ a ∧ x2 <+: b
  | [], b, X, h => Or.inr (Or.inl h)
  | c :: a', b, X, h => by
    rcases List.infix_cons_iff.mp h with hpre | hinf
    · rcases @prefix_append_split _ _ (c :: a') b X hpre with h' | ⟨y, hXy, hy⟩
      · exact Or.inl h'.isInfix
      · rcases y with _ | ⟨z, y'⟩
        · rw [List.append_nil] at hXy
          exact Or.inl (hXy ▸ List.infix_rfl)
        · exact Or.inr (Or.inr ⟨c :: a', z :: y', by simp, by simp, hXy,
            List.suffix_rfl, hy⟩)
    · rcases infix_append_split hinf with h' | h' | ⟨x1, x2, h1, h2, h3, h4, h5⟩
      · exact Or.inl (List.infix_cons h')
      · exact Or.inr (Or.inl h')
      · exact Or.inr (Or.inr ⟨x1, x2, h1, h2, h3,
          h4.trans (List.suffix_cons c a'), h5⟩)

/-- A token with no separator characters occurring in a joined list occurs in
one of the pieces. -/
theorem infix_joinSep_split {X : List Char} (xh s0 : Char) (xt st : List Char)
    (hX : X = xh :: xt) (hdis : ∀ c ∈ s0 :: st, c ∉ X) :
    ∀ {ps : List (List Char)}, X <:+: joinSep (s0 :: st) ps →
      ∃ p ∈ ps, X <:+: p
  | [], h => by subst hX; simp [joinSep] at h
  | [p], h => ⟨p, List.mem_singleton_self p, h⟩
  | p :: q :: rest, h => by
    have hxh : xh ∉ s0 :: st := fun hm => hdis _ hm (hX ▸ List.mem_cons_self xh xt)
    have hjoin : joinSep (s0 :: st) (p :: q :: rest)
        = p ++ ((s0 :: st) ++ joinSep (s0 :: st) (q :: rest)) := by
      simp [joinSep]
    rw [hjoin] at h
    rcases infix_append_split h with h' | h' | ⟨x1, x2, hx1, hx2, hXeq, hsuf, hpre⟩
    · exact ⟨p, List.mem_cons_self p _, h'⟩
    · have h2 := infix_of_infix_append xh xt hX hxh h'
      obtain ⟨r, hr, hrr⟩ := infix_joinSep_split xh s0 xt st hX hdis h2
      exact ⟨r, List.mem_cons_of_mem p hr, hrr⟩
    · rcases x2 with _ | ⟨z, x2'⟩
      · exact absurd rfl hx2
      · have hz : z = s0 := (List.cons_prefix_cons.mp hpre).1
        have hzX : z ∈ X := hXeq ▸ List.mem_append_right x1 (List.mem_cons_self z x2')
        exact absurd hzX (hz ▸ hdis s0 (List.mem_cons_self s0 st))


def wmvrlTok : List Char := "writing-mode: vertical-rl".data

theorem fix_css_line_matched {line : List Char} (hm : cssVertLine (lowerL line) = true) :
    fix_css_line line
      = replaceAll tblrTok htbTok
          (replaceAll tbrlTok htbTok
            (replaceAll vlrTok htbTok
              (replaceAll vrlTok htbTok line))) := by
  simp [fix_css_line, hm]

/-- On a matched line, no occurrence of "vertical-rl" survives the
substitution chain. -/
theorem fix_css_line_no_vrl {line : List Char} (hm : cssVertLine (lowerL line) = true) :
    containsL vrlTok (fix_css_line line) = false := by
  have h1 : ¬ vrlTok <:+: replaceAll vrlTok htbTok line :=
    raGo_elim 'v' "ertical-rl".data 'h' "orizontal-tb".data (by decide) (by decide) line
  have h2 : ¬ vrlTok <:+: replaceAll vlrTok htbTok (replaceAll vrlTok htbTok line) :=
    raGo_preserve vlrTok 'h' 'v' "orizontal-tb".data "ertical-rl".data
      (by decide) (by decide) _ h1
  have h3 : ¬ vrlTok <:+: replaceAll tbrlTok htbTok
      (replaceAll vlrTok htbTok (replaceAll vrlTok htbTok line)) :=
    raGo_preserve tbrlTok 'h' 'v' "orizontal-tb".data "ertical-rl".data
      (by decide) (by decide) _ h2
  have h4 : ¬ vrlTok <:+: replaceAll tblrTok htbTok (replaceAll tbrlTok htbTok
      (replaceAll vlrTok htbTok (replaceAll vrlTok htbTok line))) :=
    raGo_preserve tblrTok 'h' 'v' "orizontal-tb".data "ertical-rl".data
      (by decide) (by decide) _ h3
  rw [fix_css_line_matched hm]
  exact containsL_eq_false_iff.mpr h4

theorem replace_keeps_htb (oh : Char) (ot : List Char)
    {l : List Char} (h : htbTok <:+: l) : htbTok <:+: replaceAll (oh :: ot) htbTok l := by
  by_cases hc : (oh :: ot) <:+: l
  · exact raGo_intro oh ot htbTok l hc
  · rw [show replaceAll (oh :: ot) htbTok l = raGo (oh :: ot) htbTok 0 l from rfl,
      raGo_id oh ot htbTok l hc]
    exact h

/-- A matched line containing "vertical-rl" yields "horizontal-tb". -/
theorem fix_css_line_htb {line : List Char} (hm : cssVertLine (lowerL line) = true)
    (hv : vrlTok <:+: line) : htbTok <:+: fix_css_line line := by
  have h1 : htbTok <:+: replaceAll vrlTok htbTok line :=
    raGo_intro 'v' "ertical-rl".data htbTok line hv
  rw [fix_css_line_matched hm]
  exact replace_keeps_htb 't' "b-lr".data
    (replace_keeps_htb 't' "b-rl".data (replace_keeps_htb 'v' "ertical-lr".data h1))

theorem no_vrl_comment_wrap {line : List Char} (h : ¬ vrlTok <:+: line) :
    ¬ vrlTok <:+: cmtOpenTok ++ line ++ cmtCloseTok := by
  intro hh
  rw [List.append_assoc] at hh
  have h1 : vrlTok <:+: line ++ cmtCloseTok :=
    infix_of_infix_append 'v' ("ertical-rl".data) rfl (by decide) hh
  have h2 : vrlTok.reverse <:+: cmtCloseTok.reverse ++ line.reverse := by
    have := List.reverse_infix.mpr h1
    rwa [List.reverse_append] at this
  have h3 : vrlTok.reverse <:+: line.reverse :=
    infix_of_infix_append 'l' ("r-lacitrev".data) rfl (by decide) h2
  exact h (List.reverse_infix.mp h3)

theorem data_fix_css_content (css : String) :
    (fix_css_content css).data
      = joinSep ['\n'] ((splitList '\n' css.data).map fix_css_line) := rfl

/-- C9 counterexample: the stylesheet contains the unqualified declaration
`writing-mode: vertical-rl`, yet the rewritten text still contains
"vertical-rl" (on the second line, which mentions no writing-mode property and
is emitted unchanged) and contains no comment opener at all, so the surviving
occurrence is not inside a block comment. -/
theorem C9_counterexample :
    containsL wmvrlTok ("writing-mode: vertical-rl\nfoo: vertical-rl".data) = true
    ∧ containsL vrlTok
        (fix_css_content ⟨"writing-mode: vertical-rl\nfoo: vertical-rl".data⟩).data = true
    ∧ containsL cmtOpenTok
        (fix_css_content ⟨"writing-mode: vertical-rl\nfoo: vertical-rl".data⟩).data = false := by
  refine ⟨by decide, ?_, ?_⟩ <;> decide

/-- C9 (amended): for a stylesheet containing `writing-mode: vertical-rl`,
the output contains `horizontal-tb`; every line matched as a vertical
writing-mode declaration has all `vertical-rl` occurrences substituted away
(the four tokens are replaced in a left-to-right chain); and if every line
containing `vertical-rl` is such a matched line, no `vertical-rl` survives
anywhere in the output.  (A `vertical-rl` on an unmatched, uncommented line
survives, which is what the counterexample exhibits.) -/
theorem C9_amended (css : String)
    (h : containsL wmvrlTok css.data = true) :
    containsL htbTok (fix_css_content css).data = true
    ∧ (∀ line ∈ splitList '\n' css.data, cssVertLine (lowerL line) = true →
        containsL vrlTok (fix_css_line line) = false)
    ∧ ((∀ line ∈ splitList '\n' css.data,
          containsL vrlTok line = true → cssVertLine (lowerL line) = true) →
        containsL vrlTok (fix_css_content css).data = false) := by
  refine ⟨?_, fun line _ hm => fix_css_line_no_vrl hm, ?_⟩
  · have hinf : wmvrlTok <:+: css.data := (containsL_iff _ _).mp h
    obtain ⟨line, hl, hline⟩ : ∃ p ∈ splitList '\n' css.data, wmvrlTok <:+: p := by
      have hj : joinSep ['\n'] (splitList '\n' css.data) = css.data :=
        joinSep_splitList '\n' css.data
      refine infix_joinSep_split 'w' '\n' ("riting-mode: vertical-rl".data) [] rfl
        (by decide) ?_
      rw [hj]
      exact hinf
    have hlow : wmvrlTok <:+: lowerL line := by
      have := List.IsInfix.map Char.toLower hline
      rwa [show List.map Char.toLower wmvrlTok = wmvrlTok from by decide] at this
    have hm : cssVertLine (lowerL line) = true := by
      have hwm : containsL wmTok (lowerL line) = true :=
        (containsL_iff _ _).mpr ((by decide : wmTok <:+: wmvrlTok).trans hlow)
      have hv : containsL vertTok (lowerL line) = true :=
        (containsL_iff _ _).mpr ((by decide : vertTok <:+: wmvrlTok).trans hlow)
      simp [cssVertLine, hwm, hv]
    have hhtb : htbTok <:+: fix_css_line line :=
      fix_css_line_htb hm ((by decide : vrlTok <:+: wmvrlTok).trans hline)
    have hmem : fix_css_line line ∈ (splitList '\n' css.data).map fix_css_line :=
      List.mem_map_of_mem fix_css_line hl
    rw [data_fix_css_content]
    exact (containsL_iff _ _).mpr (hhtb.trans (infix_joinSep ['\n'] hmem))
  · intro hall
    apply containsL_eq_false_iff.mpr
    intro hinf
    rw [data_fix_css_content] at hinf
    obtain ⟨q, hq, hvq⟩ :=
      infix_joinSep_split 'v' '\n' ("ertical-rl".data) [] rfl (by decide) hinf
    obtain ⟨line, hl, rfl⟩ := List.mem_map.mp hq
    by_cases hm : cssVertLine (lowerL line) = true
    · have hfalse := fix_css_line_no_vrl hm
      rw [containsL_eq_false_iff] at hfalse
      exact hfalse hvq
    · have hvl : containsL vrlTok line = false := by
        cases e : containsL vrlTok line
        · rfl
        · exact absurd (hall line hl e) hm
      have hnv : ¬ vrlTok <:+: line := containsL_eq_false_iff.mp hvl
      have hout : ¬ vrlTok <:+: fix_css_line line := by
        simp only [fix_css_line]
        rw [if_neg hm]
        split
        · exact no_vrl_comment_wrap hnv
        · split
          · exact no_vrl_comment_wrap hnv
          · exact hnv
      exact hout hvq

theorem C9_amended_witness :
    containsL htbTok (fix_css_content ⟨"writing-mode: vertical-rl".data⟩).data = true
    ∧ (∀ line ∈ splitList '\n' ("writing-mode: vertical-rl".data),
        cssVertLine (lowerL line) = true →
        containsL vrlTok (fix_css_line line) = false)
    ∧ ((∀ line ∈ splitList '\n' ("writing-mode: vertical-rl".data),
          containsL vrlTok line = true → cssVertLine (lowerL line) = true) →
        containsL vrlTok (fix_css_content ⟨"writing-mode: vertical-rl".data⟩).data = false) :=
  C9_amended ⟨"writing-mode: vertical-rl".data⟩ (by decide)

/- The markup rewriter `_fix_html_content` (epub_fixer.py lines 131-175).
The BeautifulSoup document is modelled as a tree of elements (tag name,
attribute list, children) and text nodes; `str(soup)` / re-parsing is the
identity on the model (the tolerant parser round-trips the tree).  `find`
searches depth-first pre-order, `find_all(style=True)` rewrites the style
attribute of every element carrying one, and `head.append` adds a final
child. -/

mutual
inductive HNode : Type where
  | elem : String → List (String × String) → HForest → HNode
  | text : String → HNode
inductive HForest : Type where
  | fnil : HForest
  | fcons : HNode → HForest → HForest
end

def getAttr : List (String × String) → String → Option String
  | [], _ => none
  | kv :: r, key => if kv.1 = key then some kv.2 else getAttr r key

def setAttr (attrs : List (String × String)) (key v : String) : List (String × String) :=
  attrs.map (fun kv => if kv.1 = key then (key, v) else kv)

def styleStr : String := "style"
def idStr : String := "id"
def headStr : String := "head"
def bodyStr : String := "body"
def markerIdStr : String := "epub-fixer-style"
def pStr : String := "p"

/-- `EPUBFixer._get_fix_css` (lines 353-390): the override stylesheet. -/
def get_fix_css : String :=
  "\n/* EPUB格式修复样式 */\nbody \x7b\n    writing-mode: horizontal-tb !important;\n    -webkit-writing-mode: horizontal-tb !important;\n    -epub-writing-mode: horizontal-tb !important;\n    direction: ltr;\n\x7d\n\n/* 仅对文本元素应用text-orientation，避免影响图片 */\np, div, span, h1, h2, h3, h4, h5, h6 \x7b\n    text-orientation: mixed !important;\n\x7d\n\n/* 确保中文字体正确显示 */\nbody, p, div, span \x7b\n    font-family: \"Microsoft YaHei\", \"SimSun\", \"PingFang SC\", \"Noto Sans CJK SC\", sans-serif;\n\x7d\n\n/* 确保图片自动缩放以适应屏幕宽度 */\nimg \x7b\n    max-width: 100%;\n    height: auto;\n\x7d\n\n/* 确保SVG图片自动缩放以适应屏幕宽度 */\nsvg \x7b\n    max-width: 100%;\n    height: auto;\n\x7d\n"

mutual
/-- Lines 146-152: rewrite the style attribute of the first `body` element
(depth-first pre-order, like `soup.find('body')`); the Bool reports whether a
body was found. -/
def rwBodyN : HNode → HNode × Bool
  | .text s => (.text s, false)
  | .elem nm a cs =>
    if nm = bodyStr then
      match getAttr a styleStr with
      | some v => (.elem nm (setAttr a styleStr (fix_style_attribute v)) cs, true)
      | none => (.elem nm a cs, true)
    else
      let p := rwBodyF cs
      (.elem nm a p.1, p.2)
def rwBodyF : HForest → HForest × Bool
  | .fnil => (.fnil, false)
  | .fcons c cs =>
    let p := rwBodyN c
    if p.2 then (.fcons p.1 cs, true)
    else
      let q := rwBodyF cs
      (.fcons p.1 q.1, q.2)
end

mutual
/-- Lines 154-158: rewrite the style attribute of every element that has
one (`soup.find_all(style=True)`). -/
def rwAllN : HNode → HNode
  | .text s => .text s
  | .elem nm a cs =>
    .elem nm
      (match getAttr a styleStr with
       | some v => setAttr a styleStr (fix_style_attribute v)
       | none => a)
      (rwAllF cs)
def rwAllF : HForest → HForest
  | .fnil => .fnil
  | .fcons c cs => .fcons (rwAllN c) (rwAllF cs)
end

/-- The injected `<style id="epub-fixer-style">` tag (lines 166-169). -/
def styleTag : HNode :=
  .elem styleStr [(idStr, markerIdStr)] (.fcons (.text get_fix_css) .fnil)

/-- A `style` element carrying the fixed marker identifier. -/
def isMarkerStyle : HNode → Bool
  | .elem nm a _ => decide (nm = styleStr ∧ getAttr a idStr = some markerIdStr)
  | .text _ => false

mutual
/-- `head.find('style', id='epub-fixer-style')` is not `None`: some
descendant of the forest is a marker style element. -/
def hasMarkerN : HNode → Bool
  | .text _ => false
  | .elem nm a cs => isMarkerStyle (.elem nm a cs) || hasMarkerF cs
def hasMarkerF : HForest → Bool
  | .fnil => false
  | .fcons c cs => hasMarkerN c || hasMarkerF cs
end

mutual
def countMarkerN : HNode → Nat
  | .text _ => 0
  | .elem nm a cs =>
    (if isMarkerStyle (.elem nm a cs) = true then 1 else 0) + countMarkerF cs
def countMarkerF : HForest → Nat
  | .fnil => 0
  | .fcons c cs => countMarkerN c + countMarkerF cs
end

mutual
/-- Marker-style count inside the first `head` element (pre-order), `none`
when the document has no head. -/
def headMarkersN : HNode → Option Nat
  | .text _ => none
  | .elem nm _ cs => if nm = headStr then some (countMarkerF cs) else headMarkersF cs
def headMarkersF : HForest → Option Nat
  | .fnil => none
  | .fcons c cs =>
    match headMarkersN c with
    | some k => some k
    | none => headMarkersF cs
end

/-- Number of marker style elements in the document's (first) head. -/
def markerCountDoc (d : HForest) : Nat := (headMarkersF d).getD 0

def appendF : HForest → HNode → HForest
  | .fnil, n => .fcons n .fnil
  | .fcons c cs, n => .fcons c (appendF cs n)

/-- Lines 163-169: append the style tag to the head unless a marker style is
already present. -/
def injectChildren (cs : HForest) : HForest :=
  if hasMarkerF cs then cs else appendF cs styleTag

mutual
def injHeadN : HNode → HNode × Bool
  | .text s => (.text s, false)
  | .elem nm a cs =>
    if nm = headStr then (.elem nm a (injectChildren cs), true)
    else
      let p := injHeadF cs
      (.elem nm a p.1, p.2)
def injHeadF : HForest → HForest × Bool
  | .fnil => (.fnil, false)
  | .fcons c cs =>
    let p := injHeadN c
    if p.2 then (.fcons p.1 cs, true)
    else
      let q := injHeadF cs
      (.fcons p.1 q.1, q.2)
end

/-- `EPUBFixer._fix_html_content` on the tree model: body style fix, all
style-attribute fixes, head injection. -/
def fix_html_content (d : HForest) : HForest :=
  (injHeadF (rwAllF (rwBodyF d).1)).1

theorem getAttr_setAttr_ne :
    ∀ (a : List (String × String)) (k v key : String), k ≠ key →
      getAttr (setAttr a k v) key = getAttr a key
  | [], _, _, _, _ => rfl
  | kv :: r, k, v, key, hk => by
    have hrec := getAttr_setAttr_ne r k v key hk
    show getAttr ((if kv.1 = k then (k, v) else kv) :: setAttr r k v) key
      = getAttr (kv :: r) key
    by_cases h1 : kv.1 = k
    · have h3 : ¬ kv.1 = key := fun e => hk (h1.symm.trans e)
      rw [if_pos h1]
      show (if k = key then some v else getAttr (setAttr r k v) key)
        = getAttr (kv :: r) key
      rw [if_neg hk, hrec]
      show _ = (if kv.1 = key then some kv.2 else getAttr r key)
      rw [if_neg h3]
    · rw [if_neg h1]
      show (if kv.1 = key then some kv.2 else getAttr (setAttr r k v) key)
        = getAttr (kv :: r) key
      rw [hrec]
      rfl

theorem isMarkerStyle_setAttr (nm : String) (a : List (String × String))
    (v : String) (cs cs' : HForest) :
    isMarkerStyle (.elem nm (setAttr a styleStr v) cs') = isMarkerStyle (.elem nm a cs) := by
  simp [isMarkerStyle, getAttr_setAttr_ne a styleStr v idStr (by decide)]

theorem isMarkerStyle_children (nm : String) (a : List (String × String))
    (cs cs' : HForest) :
    isMarkerStyle (.elem nm a cs') = isMarkerStyle (.elem nm a cs) := by
  simp [isMarkerStyle]

/-- The attribute rewrite used by `rwAllN` on one element's attributes. -/
def rwAttrs (a : List (String × String)) : List (String × String) :=
  match getAttr a styleStr with
  | some v => setAttr a styleStr (fix_style_attribute v)
  | none => a

theorem isMarkerStyle_rwAttrs (nm : String) (a : List (String × String))
    (cs cs' : HForest) :
    isMarkerStyle (.elem nm (rwAttrs a) cs') = isMarkerStyle (.elem nm a cs) := by
  unfold rwAttrs
  rcases getAttr a styleStr with _ | v
  · exact isMarkerStyle_children nm a cs' cs
  · exact isMarkerStyle_setAttr nm a (fix_style_attribute v) cs cs'

theorem rwAllN_elem (nm : String) (a : List (String × String)) (cs : HForest) :
    rwAllN (.elem nm a cs) = .elem nm (rwAttrs a) (rwAllF cs) := rfl

mutual
theorem countMarkerN_rwAll : ∀ n : HNode, countMarkerN (rwAllN n) = countMarkerN n
  | .text s => rfl
  | .elem nm a cs => by
    rw [rwAllN_elem]
    simp only [countMarkerN]
    rw [isMarkerStyle_rwAttrs nm a cs (rwAllF cs), countMarkerF_rwAll cs]
theorem countMarkerF_rwAll : ∀ cs : HForest, countMarkerF (rwAllF cs) = countMarkerF cs
  | .fnil => rfl
  | .fcons c cs => by
    simp only [rwAllF, countMarkerF]
    rw [countMarkerN_rwAll c, countMarkerF_rwAll cs]
end

mutual
theorem headMarkersN_rwAll : ∀ n : HNode, headMarkersN (rwAllN n) = headMarkersN n
  | .text s => rfl
  | .elem nm a cs => by
    rw [rwAllN_elem]
    simp only [headMarkersN]
    rw [countMarkerF_rwAll cs, headMarkersF_rwAll cs]
theorem headMarkersF_rwAll : ∀ cs : HForest, headMarkersF (rwAllF cs) = headMarkersF cs
  | .fnil => rfl
  | .fcons c cs => by
    simp only [rwAllF, headMarkersF]
    rw [headMarkersN_rwAll c, headMarkersF_rwAll cs]
end

mutual
theorem countMarkerN_rwBody : ∀ n : HNode, countMarkerN (rwBodyN n).1 = countMarkerN n
  | .text s => rfl
  | .elem nm a cs => by
    simp only [rwBodyN]
    split
    · split
      · next v _ =>
        simp only [countMarkerN]
        rw [isMarkerStyle_setAttr nm a (fix_style_attribute v) cs cs]
      · rfl
    · simp only [countMarkerN]
      rw [isMarkerStyle_children nm a ((rwBodyF cs).1) cs, countMarkerF_rwBody cs]
theorem countMarkerF_rwBody : ∀ cs : HForest, countMarkerF (rwBodyF cs).1 = countMarkerF cs
  | .fnil => rfl
  | .fcons c cs => by
    simp only [rwBodyF]
    split
    · simp only [countMarkerF]
      rw [countMarkerN_rwBody c]
    · simp only [countMarkerF]
      rw [countMarkerN_rwBody c, countMarkerF_rwBody cs]
end

mutual
theorem headMarkersN_rwBody : ∀ n : HNode, headMarkersN (rwBodyN n).1 = headMarkersN n
  | .text s => rfl
  | .elem nm a cs => by
    simp only [rwBodyN]
    split
    · split <;> rfl
    · simp only [headMarkersN]
      rw [countMarkerF_rwBody cs, headMarkersF_rwBody cs]
theorem headMarkersF_rwBody : ∀ cs : HForest, headMarkersF (rwBodyF cs).1 = headMarkersF cs
  | .fnil => rfl
  | .fcons c cs => by
    simp only [rwBodyF]
    split
    · simp only [headMarkersF]
      rw [headMarkersN_rwBody c]
    · simp only [headMarkersF]
      rw [headMarkersN_rwBody c, headMarkersF_rwBody cs]
end

mutual
theorem hasMarkerN_eq_false_iff : ∀ n : HNode, hasMarkerN n = false ↔ countMarkerN n = 0
  | .text s => by simp [hasMarkerN, countMarkerN]
  | .elem nm a cs => by
    simp only [hasMarkerN, countMarkerN, Bool.or_eq_false_iff]
    rw [hasMarkerF_eq_false_iff cs]
    constructor
    · rintro ⟨h1, h2⟩
      simp [h1, h2]
    · intro h
      rcases Nat.add_eq_zero.mp h with ⟨h1, h2⟩
      constructor
      · rcases e : isMarkerStyle (.elem nm a cs) with _ | _
        · rfl
        · rw [e] at h1; simp at h1
      · exact h2
theorem hasMarkerF_eq_false_iff : ∀ cs : HForest, hasMarkerF cs = false ↔ countMarkerF cs = 0
  | .fnil => by simp [hasMarkerF, countMarkerF]
  | .fcons c cs => by
    simp only [hasMarkerF, countMarkerF, Bool.or_eq_false_iff, Nat.add_eq_zero]
    rw [hasMarkerN_eq_false_iff c, hasMarkerF_eq_false_iff cs]
end

theorem countMarkerF_appendF : ∀ (cs : HForest) (n : HNode),
    countMarkerF (appendF cs n) = countMarkerF cs + countMarkerN n
  | .fnil, n => by simp [appendF, countMarkerF]
  | .fcons c cs, n => by
    simp only [appendF, countMarkerF]
    rw [countMarkerF_appendF cs n, Nat.add_assoc]

theorem countMarkerN_styleTag : countMarkerN styleTag = 1 := by decide

theorem countMarkerF_injectChildren (cs : HForest) :
    countMarkerF (injectChildren cs)
      = if countMarkerF cs = 0 then 1 else countMarkerF cs := by
  unfold injectChildren
  rcases e : hasMarkerF cs with _ | _
  · have h0 : countMarkerF cs = 0 := (hasMarkerF_eq_false_iff cs).mp e
    rw [if_neg Bool.false_ne_true, countMarkerF_appendF, countMarkerN_styleTag, h0]
    simp
  · have h0 : ¬ countMarkerF cs = 0 := fun hh => by
      rw [(hasMarkerF_eq_false_iff cs).mpr hh] at e
      cases e
    rw [if_pos rfl, if_neg h0]

mutual
theorem injHeadN_spec : ∀ n : HNode,
    ((injHeadN n).2 = false ∧ (injHeadN n).1 = n ∧ headMarkersN n = none)
    ∨ (∃ k, headMarkersN n = some k ∧ (injHeadN n).2 = true
        ∧ headMarkersN (injHeadN n).1 = some (if k = 0 then 1 else k))
  | .text s => Or.inl ⟨rfl, rfl, rfl⟩
  | .elem nm a cs => by
    by_cases hn : nm = headStr
    · refine Or.inr ⟨countMarkerF cs, ?_, ?_, ?_⟩
      · simp [headMarkersN, hn]
      · simp [injHeadN, hn]
      · simp only [injHeadN, if_pos hn, headMarkersN]
        rw [countMarkerF_injectChildren cs]
    · rcases injHeadF_spec cs with ⟨h1, h2, h3⟩ | ⟨k, h1, h2, h3⟩
      · refine Or.inl ⟨?_, ?_, ?_⟩
        · simp [injHeadN, hn, h1]
        · simp [injHeadN, hn, h2]
        · simp [headMarkersN, hn, h3]
      · refine Or.inr ⟨k, ?_, ?_, ?_⟩
        · simp [headMarkersN, hn, h1]
        · simp [injHeadN, hn, h2]
        · simp [injHeadN, headMarkersN, hn, h3]
theorem injHeadF_spec : ∀ cs : HForest,
    ((injHeadF cs).2 = false ∧ (injHeadF cs).1 = cs ∧ headMarkersF cs = none)
    ∨ (∃ k, headMarkersF cs = some k ∧ (injHeadF cs).2 = true
        ∧ headMarkersF (injHeadF cs).1 = some (if k = 0 then 1 else k))
  | .fnil => Or.inl ⟨rfl, rfl, rfl⟩
  | .fcons c cs => by
    rcases injHeadN_spec c with ⟨h1, h2, h3⟩ | ⟨k, h1, h2, h3⟩
    · rcases injHeadF_spec cs with ⟨g1, g2, g3⟩ | ⟨k, g1, g2, g3⟩
      · refine Or.inl ⟨?_, ?_, ?_⟩
        · simp [injHeadF, h1, g1]
        · simp [injHeadF, h1, h2, g2]
        · simp [headMarkersF, h3, g3]
      · refine Or.inr ⟨k, ?_, ?_, ?_⟩
        · simp [headMarkersF, h3, g1]
        · simp [injHeadF, h1, g2]
        · simp [injHeadF, headMarkersF, h1, h2, h3, g3]
    · refine Or.inr ⟨k, ?_, ?_, ?_⟩
      · simp [headMarkersF, h1]
      · simp [injHeadF, h2]
      · simp [injHeadF, headMarkersF, h2, h3]
end

/-- One fix pass maps the first-head marker count through
`k ↦ if k = 0 then 1 else k`. -/
theorem headMarkersF_fix (d : HForest) :
    headMarkersF (fix_html_content d)
      = (headMarkersF d).map (fun k => if k = 0 then 1 else k) := by
  unfold fix_html_content
  have h1 := headMarkersF_rwBody d
  have h2 := headMarkersF_rwAll (rwBodyF d).1
  rcases injHeadF_spec (rwAllF (rwBodyF d).1) with ⟨ha, hb, hc⟩ | ⟨k, h3, h4, h5⟩
  · have hd : headMarkersF d = none := by rw [← h1, ← h2]; exact hc
    rw [hb, hc, hd]
    rfl
  · have hd : headMarkersF d = some k := by rw [← h1, ← h2]; exact h3
    rw [h5, hd]
    rfl

def docNoHead : HForest := .fcons (.elem pStr [] .fnil) .fnil

/-- C3 counterexample: on a markup input without a head element, running the
rewriter on its own output yields a document with zero marker style elements,
not exactly one. -/
theorem C3_counterexample :
    ¬ markerCountDoc (fix_html_content (fix_html_content docNoHead)) = 1 := by
  decide

/-- C3 (amended): the head injection never duplicates the marker block —
re-running the rewriter on its own output leaves the marker-style count of
the first head unchanged — and on a document whose head contains no marker
style, one run produces exactly one marker style element in the head. -/
theorem C3_amended (d : HForest) :
    markerCountDoc (fix_html_content (fix_html_content d))
      = markerCountDoc (fix_html_content d)
    ∧ (headMarkersF d = some 0 → markerCountDoc (fix_html_content d) = 1) := by
  constructor
  · unfold markerCountDoc
    rw [headMarkersF_fix, headMarkersF_fix]
    rcases headMarkersF d with _ | k
    · rfl
    · rcases k with _ | k <;> simp
  · intro h
    unfold markerCountDoc
    rw [headMarkersF_fix, h]
    rfl

def docWithHead : HForest :=
  .fcons (.elem headStr [] .fnil) (.fcons (.elem bodyStr [] .fnil) .fnil)

theorem C3_amended_witness :
    markerCountDoc (fix_html_content (fix_html_content docWithHead))
      = markerCountDoc (fix_html_content docWithHead)
    ∧ markerCountDoc (fix_html_content docWithHead) = 1 :=
  ⟨(C3_amended docWithHead).1, (C3_amended docWithHead).2 (by decide)⟩

/- `EPUBFixer._fix_toc_uids` (epub_fixer.py lines 263-291).  The ebooklib TOC
is a nesting of lists/tuples (modelled as `group`) over Link leaves exposing a
`uid` attribute (modelled as `Option String`; `uid is None` is `none`).
`uuid.uuid4()` is modelled as an injective fresh-identifier supply indexed by
a call counter, so each call yields a new, globally unique identifier. -/

mutual
inductive TocNode : Type where
  | link : Option String → TocNode
  | group : TocForest → TocNode
inductive TocForest : Type where
  | tnil : TocForest
  | tcons : TocNode → TocForest → TocForest
end

/-- Fresh-identifier supply standing in for `uuid.uuid4()`. -/
def genUid (n : Nat) : String := String.mk (List.replicate (n + 1) 'u')

mutual
/-- `fix_toc_item`: depth-first; a leaf with `uid is None` gets a fresh
identifier, any other leaf is untouched. -/
def fixTocN : TocNode → Nat → TocNode × Nat
  | .link none, n => (.link (some (genUid n)), n + 1)
  | .link (some s), n => (.link (some s), n)
  | .group cs, n =>
    let p := fixTocF cs n
    (.group p.1, p.2)
def fixTocF : TocForest → Nat → TocForest × Nat
  | .tnil, n => (.tnil, n)
  | .tcons c cs, n =>
    let p := fixTocN c n
    let q := fixTocF cs p.2
    (.tcons p.1 q.1, q.2)
end

mutual
/-- Leaf identifiers in depth-first traversal order. -/
def leafUidsN : TocNode → List (Option String)
  | .link u => [u]
  | .group cs => leafUidsF cs
def leafUidsF : TocForest → List (Option String)
  | .tnil => []
  | .tcons c cs => leafUidsN c ++ leafUidsF cs
end

/-- List-level view of the repair. -/
def repairUids : List (Option String) → Nat → List (Option String) × Nat
  | [], n => ([], n)
  | none :: us, n =>
    let q := repairUids us (n + 1)
    (some (genUid n) :: q.1, q.2)
  | some s :: us, n =>
    let q := repairUids us n
    (some s :: q.1, q.2)

/-- Identifiers freshly assigned by the repair, in traversal order. -/
def assignedIds : List (Option String) → Nat → List String
  | [], _ => []
  | none :: us, n => genUid n :: assignedIds us (n + 1)
  | some _ :: us, n => assignedIds us n

/-- Fill the unset positions of a uid list with the given fresh identifiers. -/
def fillNones : List (Option String) → List String → List (Option String)
  | [], _ => []
  | none :: us, g :: gs => some g :: fillNones us gs
  | none :: us, [] => none :: fillNones us []
  | some s :: us, gs => some s :: fillNones us gs

theorem repairUids_append : ∀ (xs ys : List (Option String)) (n : Nat),
    repairUids (xs ++ ys) n
      = ((repairUids xs n).1 ++ (repairUids ys (repairUids xs n).2).1,
         (repairUids ys (repairUids xs n).2).2)
  | [], ys, n => by simp [repairUids]
  | none :: xs, ys, n => by
    have ih := repairUids_append xs ys (n + 1)
    show (some (genUid n) :: (repairUids (xs ++ ys) (n + 1)).1,
        (repairUids (xs ++ ys) (n + 1)).2)
      = (some (genUid n) :: ((repairUids xs (n + 1)).1
            ++ (repairUids ys (repairUids xs (n + 1)).2).1),
         (repairUids ys (repairUids xs (n + 1)).2).2)
    rw [ih]
  | some s :: xs, ys, n => by
    have ih := repairUids_append xs ys n
    show (some s :: (repairUids (xs ++ ys) n).1, (repairUids (xs ++ ys) n).2)
      = (some s :: ((repairUids xs n).1 ++ (repairUids ys (repairUids xs n).2).1),
         (repairUids ys (repairUids xs n).2).2)
    rw [ih]

mutual
theorem fixTocN_leaf : ∀ (t : TocNode) (n : Nat),
    leafUidsN (fixTocN t n).1 = (repairUids (leafUidsN t) n).1
    ∧ (fixTocN t n).2 = (repairUids (leafUidsN t) n).2
  | .link none, n => ⟨rfl, rfl⟩
  | .link (some s), n => ⟨rfl, rfl⟩
  | .group cs, n => by
    simp only [fixTocN, leafUidsN]
    exact fixTocF_leaf cs n
theorem fixTocF_leaf : ∀ (cs : TocForest) (n : Nat),
    leafUidsF (fixTocF cs n).1 = (repairUids (leafUidsF cs) n).1
    ∧ (fixTocF cs n).2 = (repairUids (leafUidsF cs) n).2
  | .tnil, n => ⟨rfl, rfl⟩
  | .tcons c cs, n => by
    obtain ⟨h1, h2⟩ := fixTocN_leaf c n
    obtain ⟨h3, h4⟩ := fixTocF_leaf cs (fixTocN c n).2
    simp only [fixTocF, leafUidsF, repairUids_append]
    rw [h1, h2] at *
    rw [h3, h4]
    exact ⟨rfl, rfl⟩
end

theorem repairUids_forall₂ : ∀ (us : List (Option String)) (n : Nat),
    List.Forall₂ (fun u v => (∀ s, u = some s → v = some s) ∧ v.isSome = true)
      us (repairUids us n).1
  | [], n => List.Forall₂.nil
  | none :: us, n =>
    List.Forall₂.cons ⟨(fun s e => nomatch e), rfl⟩ (repairUids_forall₂ us (n + 1))
  | some s :: us, n =>
    List.Forall₂.cons ⟨(fun s' e => e), rfl⟩ (repairUids_forall₂ us n)

theorem repairUids_fillNones : ∀ (us : List (Option String)) (n : Nat),
    (repairUids us n).1 = fillNones us (assignedIds us n)
  | [], n => rfl
  | none :: us, n => by
    simp only [repairUids, assignedIds, fillNones, repairUids_fillNones us (n + 1)]
  | some s :: us, n => by
    simp only [repairUids, assignedIds, fillNones, repairUids_fillNones us n]

theorem genUid_injective : Function.Injective genUid := by
  intro a b h
  have h2 : (List.replicate (a + 1) 'u').length = (List.replicate (b + 1) 'u').length := by
    rw [show List.replicate (a + 1) 'u' = (genUid a).data from rfl,
      show List.replicate (b + 1) 'u' = (genUid b).data from rfl, h]
  simp only [List.length_replicate] at h2
  omega

theorem assignedIds_eq : ∀ (us : List (Option String)) (n : Nat),
    assignedIds us n = (List.range' n (us.count none)).map genUid
  | [], n => by simp [assignedIds]
  | none :: us, n => by
    rw [show (none :: us).count (none : Option String) = us.count none + 1 from
      List.count_cons_self none us, List.range'_succ, List.map_cons]
    simp only [assignedIds, assignedIds_eq us (n + 1)]
  | some s :: us, n => by
    rw [show (some s :: us).count (none : Option String) = us.count none from
      List.count_cons_of_ne (by simp) us]
    simp only [assignedIds, assignedIds_eq us n]

theorem assignedIds_nodup (us : List (Option String)) (n : Nat) :
    (assignedIds us n).Nodup := by
  rw [assignedIds_eq]
  exact (List.nodup_range' n (us.count none)).map genUid_injective

/-- C7 (amended): the repair visits every leaf once in depth-first order —
the output leaf list corresponds pointwise to the input leaf list — every leaf
with a set identifier keeps it, every leaf ends up with a set identifier, and
the unset positions are filled, in traversal order, with identifiers drawn
from the fresh supply, which are pairwise distinct.  (A leaf whose identifier
is the empty string — set, but empty — is NOT reassigned; only `None`
identifiers are.) -/
theorem C7_amended (toc : TocForest) (n : Nat) :
    List.Forall₂ (fun u v => (∀ s, u = some s → v = some s) ∧ v.isSome = true)
      (leafUidsF toc) (leafUidsF (fixTocF toc n).1)
    ∧ leafUidsF (fixTocF toc n).1
        = fillNones (leafUidsF toc) (assignedIds (leafUidsF toc) n)
    ∧ (assignedIds (leafUidsF toc) n).Nodup := by
  refine ⟨?_, ?_, assignedIds_nodup _ n⟩
  · rw [(fixTocF_leaf toc n).1]
    exact repairUids_forall₂ (leafUidsF toc) n
  · rw [(fixTocF_leaf toc n).1]
    exact repairUids_fillNones (leafUidsF toc) n

mutual
/-- Every leaf identifier is set and nonempty. -/
def leavesNonEmptyN : TocNode → Bool
  | .link none => false
  | .link (some s) => !s.isEmpty
  | .group cs => leavesNonEmptyF cs
def leavesNonEmptyF : TocForest → Bool
  | .tnil => true
  | .tcons c cs => leavesNonEmptyN c && leavesNonEmptyF cs
end

def emptyUidStr : String := ""

def tocEmptyUid : TocForest := .tcons (.link (some emptyUidStr)) .tnil

/-- C7 counterexample: the repair only assigns when the identifier is unset
(`uid is None`); a leaf carrying the empty string keeps it, so after repair
not every leaf has a non-empty identifier. -/
theorem C7_counterexample :
    leavesNonEmptyF (fixTocF tocEmptyUid 0).1 = false := by decide

/- `EPUBFixer._fix_opf_direction` (epub_fixer.py lines 312-351), attribute
logic on the located spine element: ElementTree attributes are modelled as an
association list, `spine.get`/`spine.set` as `getAttr`/`setAttr`. -/

def ppdStr : String := "page-progression-direction"
def rtlStr : String := "rtl"
def ltrStr : String := "ltr"

/-- Lines 343-346: `if spine is not None` and `if
spine.get('page-progression-direction') == 'rtl': spine.set(..., 'ltr')`. -/
def fix_opf_direction (spine : Option (List (String × String))) :
    Option (List (String × String)) :=
  match spine with
  | none => none
  | some a =>
    if getAttr a ppdStr = some rtlStr then some (setAttr a ppdStr ltrStr) else some a

theorem getAttr_setAttr_same :
    ∀ (a : List (String × String)) (k v v0 : String), getAttr a k = some v0 →
      getAttr (setAttr a k v) k = some v
  | [], k, v, v0, h => by simp [getAttr] at h
  | kv :: r, k, v, v0, h => by
    by_cases h1 : kv.1 = k
    · show getAttr ((if kv.1 = k then (k, v) else kv) :: setAttr r k v) k = some v
      rw [if_pos h1]
      show (if k = k then some v else getAttr (setAttr r k v) k) = some v
      rw [if_pos rfl]
    · have h2 : getAttr r k = some v0 := by
        simpa [getAttr, h1] using h
      show getAttr ((if kv.1 = k then (k, v) else kv) :: setAttr r k v) k = some v
      rw [if_neg h1]
      show (if kv.1 = k then some kv.2 else getAttr (setAttr r k v) k) = some v
      rw [if_neg h1]
      exact getAttr_setAttr_same r k v v0 h2

/-- C6: the direction patch leaves an absent spine alone; on a spine it
rewrites the attribute list only when the attribute equals "rtl"; the
resulting attribute value is: "ltr" when it was "rtl", unchanged when it was
any other value, and still absent when it was absent. -/
theorem fix_opf_direction_spec (a : List (String × String)) :
    fix_opf_direction none = none
    ∧ fix_opf_direction (some a)
        = some (if getAttr a ppdStr = some rtlStr then setAttr a ppdStr ltrStr else a)
    ∧ getAttr ((fix_opf_direction (some a)).getD []) ppdStr
        = (match getAttr a ppdStr with
           | some v => if v = rtlStr then some ltrStr else some v
           | none => none) := by
  have h2 : fix_opf_direction (some a)
      = some (if getAttr a ppdStr = some rtlStr then setAttr a ppdStr ltrStr else a) := by
    show (if getAttr a ppdStr = some rtlStr then some (setAttr a ppdStr ltrStr)
        else some a)
      = some (if getAttr a ppdStr = some rtlStr then setAttr a ppdStr ltrStr else a)
    by_cases h : getAttr a ppdStr = some rtlStr
    · rw [if_pos h, if_pos h]
    · rw [if_neg h, if_neg h]
  refine ⟨rfl, h2, ?_⟩
  rw [h2]
  rcases e : getAttr a ppdStr with _ | v
  · rw [if_neg (by simp), Option.getD_some, e]
  · by_cases hv : v = rtlStr
    · subst hv
      rw [if_pos rfl, Option.getD_some,
        getAttr_setAttr_same a ppdStr ltrStr rtlStr e]
      simp
    · rw [if_neg (by simp [hv]), Option.getD_some, e]
      simp [hv]

/- `EPUBFixer.fix_epub` (epub_fixer.py lines 25-129).  The unpacked archive
(the temporary directory) is modelled as an association list of
path ↦ content; the ebooklib manifest item lists (the `file_name`s of the
ITEM_DOCUMENT and ITEM_STYLE items) and the three content rewriters (HTML,
CSS, OPF serialization — whose string-level behaviour is proved above) are
parameters of the pass. -/

abbrev FTree := List (String × String)

def blankStr : String := ""
def epubPre : String := "EPUB/"
def oebpsPre : String := "OEBPS/"
def prefixes3 : List String := [epubPre, oebpsPre, blankStr]
def mimetypeStr : String := "mimetype"
def styleDirRel : String := "style/"
def cssFileRel : String := "style/epub_fixer.css"
def opfExtStr : String := ".opf"
def slashChar : Char := '/'

def fexists (fs : FTree) (p : String) : Bool := fs.any (fun e => decide (e.1 = p))

def fread (fs : FTree) (p : String) : Option String :=
  (fs.find? (fun e => decide (e.1 = p))).map (fun e => e.2)

def fupdate (fs : FTree) (p c : String) : FTree :=
  fs.map (fun e => if e.1 = p then (p, c) else e)

def fwrite (fs : FTree) (p c : String) : FTree :=
  if fexists fs p then fupdate fs p c else fs ++ [(p, c)]

/-- Lines 56-71 and 79-92: locate an item's file under the known container
prefixes, first hit wins (`for prefix in ['EPUB/', 'OEBPS/', '']: ...
break`). -/
def resolveItem (fs : FTree) (nm : String) : Option String :=
  prefixes3.findSome? (fun pre => if fexists fs (pre ++ nm) then some (pre ++ nm) else none)

/-- Rewrite each listed item's file in place; items that resolve to no file
are skipped (the code prints a warning). -/
def fixItems (fixer : String → String) : FTree → List String → FTree
  | fs, [] => fs
  | fs, nm :: rest =>
    match resolveItem fs nm with
    | some p => fixItems fixer (fupdate fs p (fixer ((fread fs p).getD blankStr))) rest
    | none => fixItems fixer fs rest

/-- Lines 95-97: `os.path.exists(style_dir)` on the extracted archive — the
directory exists iff some entry lies below it. -/
def styleDirAt (fs : FTree) (pre : String) : Bool :=
  fs.any (fun e => isPrefixL (pre ++ styleDirRel).data e.1.data)

def findStyleDir (fs : FTree) : Option String := prefixes3.find? (styleDirAt fs)

/-- Lines 94-101: write the override stylesheet into the first prefix whose
style directory exists (overwriting a file already at that path); when no
style directory exists nothing is added. -/
def injectCss (fs : FTree) : FTree :=
  match findStyleDir fs with
  | some pre => fwrite fs (pre ++ cssFileRel) get_fix_css
  | none => fs

/-- A file directly under `pre` (no further slash) whose name ends in
`.opf` (lines 322-329; `os.listdir` order is modelled as entry order). -/
def isOpfAt (pre p : String) : Bool :=
  isPrefixL pre.data p.data
    && !decide (slashChar ∈ p.data.drop pre.data.length)
    && decide (opfExtStr.data <:+ p.data.drop pre.data.length)

def findOpf (fs : FTree) : Option String :=
  prefixes3.findSome? (fun pre => (fs.find? (fun e => isOpfAt pre e.1)).map (fun e => e.1))

/-- Line 104 (`_fix_opf_direction`): re-serialize the first OPF file found;
the file-level rewrite (ElementTree parse / attribute patch / write, with
parse failure leaving the file as is) is the abstract parameter. -/
def fixOpfFile (opfFix : String → String) (fs : FTree) : FTree :=
  match findOpf fs with
  | some p => fupdate fs p (opfFix ((fread fs p).getD blankStr))
  | none => fs

/-- The temp-directory mutation phase of `fix_epub` (lines 52-104): rewrite
document items, rewrite style items, add the override stylesheet, patch the
OPF. -/
def fixPass (fd fc fo : String → String) (docs styles : List String) (fs : FTree) : FTree :=
  fixOpfFile fo (injectCss (fixItems fc (fixItems fd fs docs) styles))

structure ZEntry where
  path : String
  content : String
  stored : Bool
deriving DecidableEq

def baseName (p : String) : String :=
  String.mk ((splitList slashChar p.data).getLastD [])

/-- Lines 107-120: repack — the mimetype file first and uncompressed
(`ZIP_STORED`), then every other file compressed (`ZIP_DEFLATED`); the walk
skips any file whose base name is `mimetype`. -/
def repack (fs : FTree) : List ZEntry :=
  (match fread fs mimetypeStr with
   | some c => [⟨mimetypeStr, c, true⟩]
   | none => [])
  ++ (fs.filter (fun e => !decide (baseName e.1 = mimetypeStr))).map
      (fun e => ⟨e.1, e.2, false⟩)

/-- `fix_epub`'s archive-to-archive behaviour (extract, mutate, repack). -/
def fix_epub_files (fd fc fo : String → String) (docs styles : List String)
    (fs : FTree) : List ZEntry :=
  repack (fixPass fd fc fo docs styles fs)

/-- `EPUBFixer.fix_epub` with its boundary `try/except` (lines 36-129):
reading the input package and writing the output package are the fallible
externals (modelled as `Except` values); the catch-all turns any failure
into the return value `false` and success into `true`. -/
def fix_epub (readPkg : Except String FTree)
    (writePkg : List ZEntry → Except String Unit)
    (fd fc fo : String → String) (docs styles : List String) : Bool :=
  match readPkg with
  | .error _ => false
  | .ok fs =>
    match writePkg (fix_epub_files fd fc fo docs styles fs) with
    | .error _ => false
    | .ok _ => true

/- Basic facts about the file-tree operations. -/

theorem map_fst_fupdate (fs : FTree) (p c : String) :
    (fupdate fs p c).map Prod.fst = fs.map Prod.fst := by
  unfold fupdate
  rw [List.map_map]
  apply List.map_congr_left
  intro e _
  by_cases h : e.1 = p
  · simp [h]
  · simp [h]

theorem any_on_fst : ∀ (fs : FTree) (p : String → Bool),
    fs.any (fun e => p e.1) = (fs.map Prod.fst).any p
  | [], _ => rfl
  | e :: fs, p => by
    show (p e.1 || List.any fs (fun x => p x.1)) = (p e.1 || (fs.map Prod.fst).any p)
    rw [any_on_fst fs p]

theorem fexists_eq_any_fst (fs : FTree) (q : String) :
    fexists fs q = (fs.map Prod.fst).any (fun x => decide (x = q)) :=
  any_on_fst fs (fun x => decide (x = q))

theorem fexists_fupdate (fs : FTree) (p c q : String) :
    fexists (fupdate fs p c) q = fexists fs q := by
  rw [fexists_eq_any_fst, fexists_eq_any_fst, map_fst_fupdate]

theorem fexists_iff_mem_fst (fs : FTree) (q : String) :
    fexists fs q = true ↔ q ∈ fs.map Prod.fst := by
  rw [fexists_eq_any_fst, List.any_eq_true]
  constructor
  · rintro ⟨x, hx, he⟩
    exact (of_decide_eq_true he) ▸ hx
  · intro h
    exact ⟨q, h, by simp⟩

theorem fread_fupdate_ne : ∀ (fs : FTree) (p c q : String), q ≠ p →
    fread (fupdate fs p c) q = fread fs q
  | [], _, _, _, _ => rfl
  | e :: fs, p, c, q, h => by
    have hrec := fread_fupdate_ne fs p c q h
    by_cases h1 : e.1 = p
    · have he : decide (e.1 = q) = false := by simp [h1, Ne.symm h]
      have hp : decide (((p, c) : String × String).1 = q) = false := by
        simp [Ne.symm h]
      simp only [fread, fupdate, List.map_cons, if_pos h1, List.find?_cons, hp, he]
      exact hrec
    · by_cases h2 : e.1 = q
      · have he : decide (e.1 = q) = true := by simp [h2]
        simp only [fread, fupdate, List.map_cons, if_neg h1, List.find?_cons, he]
      · simp only [fread, fupdate, List.map_cons, if_neg h1, List.find?_cons,
          show decide (e.1 = q) = false by simp [h2]]
        exact hrec

theorem fread_fwrite_ne (fs : FTree) (p c q : String) (h : q ≠ p) :
    fread (fwrite fs p c) q = fread fs q := by
  unfold fwrite
  split
  · exact fread_fupdate_ne fs p c q h
  · show (List.find? (fun e => decide (e.1 = q)) (fs ++ [(p, c)])).map (fun e => e.2)
      = fread fs q
    rw [List.find?_append,
      show List.find? (fun e => decide (e.1 = q)) [(p, c)] = none by simp [Ne.symm h],
      Option.or_none]
    rfl

theorem length_fupdate (fs : FTree) (p c : String) :
    (fupdate fs p c).length = fs.length := List.length_map fs _

theorem length_fwrite (fs : FTree) (p c : String) :
    (fwrite fs p c).length = fs.length + (if fexists fs p then 0 else 1) := by
  unfold fwrite
  split
  · simp [length_fupdate]
  · simp

theorem map_fst_fixItems (fixer : String → String) :
    ∀ (names : List String) (fs : FTree),
      (fixItems fixer fs names).map Prod.fst = fs.map Prod.fst
  | [], fs => rfl
  | nm :: rest, fs => by
    show (match resolveItem fs nm with
      | some p => fixItems fixer (fupdate fs p (fixer ((fread fs p).getD blankStr))) rest
      | none => fixItems fixer fs rest).map Prod.fst = fs.map Prod.fst
    rcases resolveItem fs nm with _ | p
    · exact map_fst_fixItems fixer rest fs
    · rw [map_fst_fixItems fixer rest _, map_fst_fupdate]

theorem length_fixItems (fixer : String → String) :
    ∀ (names : List String) (fs : FTree),
      (fixItems fixer fs names).length = fs.length := by
  intro names fs
  have h := congrArg List.length (map_fst_fixItems fixer names fs)
  rwa [List.length_map, List.length_map] at h

theorem fexists_fixItems (fixer : String → String) (names : List String)
    (fs : FTree) (q : String) :
    fexists (fixItems fixer fs names) q = fexists fs q := by
  rw [fexists_eq_any_fst, fexists_eq_any_fst, map_fst_fixItems]

theorem resolveItem_congr {fs fs' : FTree}
    (h : ∀ q, fexists fs' q = fexists fs q) (nm : String) :
    resolveItem fs' nm = resolveItem fs nm := by
  simp only [resolveItem, h]

theorem resolveItem_shape {fs : FTree} {nm p : String}
    (h : resolveItem fs nm = some p) : ∃ pre ∈ prefixes3, p = pre ++ nm := by
  obtain ⟨pre, hpre, hf⟩ := List.exists_of_findSome?_eq_some h
  refine ⟨pre, hpre, ?_⟩
  split at hf
  · exact (Option.some.inj hf).symm
  · cases hf

theorem fread_fixItems_notin (fixer : String → String) :
    ∀ (names : List String) (fs : FTree) (q : String),
      (∀ nm ∈ names, ∀ p, resolveItem fs nm = some p → q ≠ p) →
      fread (fixItems fixer fs names) q = fread fs q
  | [], fs, q, _ => rfl
  | nm :: rest, fs, q, h => by
    show fread (match resolveItem fs nm with
      | some p => fixItems fixer (fupdate fs p (fixer ((fread fs p).getD blankStr))) rest
      | none => fixItems fixer fs rest) q = fread fs q
    rcases e : resolveItem fs nm with _ | p
    · exact fread_fixItems_notin fixer rest fs q
        (fun nm' hm p hp => h nm' (List.mem_cons_of_mem nm hm) p hp)
    · have hq : q ≠ p := h nm (List.mem_cons_self nm rest) p e
      have hres : ∀ nm', resolveItem
          (fupdate fs p (fixer ((fread fs p).getD blankStr))) nm'
          = resolveItem fs nm' :=
        resolveItem_congr (fun r => fexists_fupdate fs p _ r)
      rw [fread_fixItems_notin fixer rest _ q
        (fun nm' hm p' hp' => h nm' (List.mem_cons_of_mem nm hm) p' (by
          rw [← hres nm']; exact hp'))]
      exact fread_fupdate_ne fs p _ q hq

theorem styleDirAt_congr {fs fs' : FTree}
    (h : fs'.map Prod.fst = fs.map Prod.fst) (pre : String) :
    styleDirAt fs' pre = styleDirAt fs pre := by
  unfold styleDirAt
  rw [any_on_fst fs' (fun x => isPrefixL (pre ++ styleDirRel).data x.data),
    any_on_fst fs (fun x => isPrefixL (pre ++ styleDirRel).data x.data), h]

theorem findStyleDir_congr {fs fs' : FTree}
    (h : fs'.map Prod.fst = fs.map Prod.fst) :
    findStyleDir fs' = findStyleDir fs := by
  unfold findStyleDir
  congr 1
  funext pre
  exact styleDirAt_congr h pre

theorem fread_injectCss_ne (fs : FTree) (q : String)
    (h : ∀ pre ∈ prefixes3, q ≠ pre ++ cssFileRel) :
    fread (injectCss fs) q = fread fs q := by
  unfold injectCss
  rcases e : findStyleDir fs with _ | pre
  · rfl
  · exact fread_fwrite_ne fs _ _ q (h pre (List.mem_of_find?_eq_some e))

theorem length_injectCss (fs : FTree) :
    (injectCss fs).length
      = fs.length + (match findStyleDir fs with
          | some pre => if fexists fs (pre ++ cssFileRel) then 0 else 1
          | none => 0) := by
  unfold injectCss
  rcases findStyleDir fs with _ | pre
  · rfl
  · exact length_fwrite fs _ _

theorem findOpf_isOpf {fs : FTree} {p : String} (h : findOpf fs = some p) :
    ∃ pre, isOpfAt pre p = true := by
  obtain ⟨pre, _, hf⟩ := List.exists_of_findSome?_eq_some h
  rcases e : fs.find? (fun e => isOpfAt pre e.1) with _ | ent
  · rw [e] at hf; cases hf
  · rw [e] at hf
    have h2 := List.find?_some e
    have h3 : ent.1 = p := Option.some.inj hf
    exact ⟨pre, h3 ▸ h2⟩

theorem fread_fixOpfFile_ne (fo : String → String) (fs : FTree) (q : String)
    (h : ∀ p, findOpf fs = some p → q ≠ p) :
    fread (fixOpfFile fo fs) q = fread fs q := by
  unfold fixOpfFile
  rcases e : findOpf fs with _ | p
  · rfl
  · exact fread_fupdate_ne fs p _ q (h p e)

theorem length_fixOpfFile (fo : String → String) (fs : FTree) :
    (fixOpfFile fo fs).length = fs.length := by
  unfold fixOpfFile
  rcases findOpf fs with _ | p
  · rfl
  · exact length_fupdate fs p _

theorem map_fst_fixOpfFile (fo : String → String) (fs : FTree) :
    (fixOpfFile fo fs).map Prod.fst = fs.map Prod.fst := by
  unfold fixOpfFile
  rcases findOpf fs with _ | p
  · rfl
  · exact map_fst_fupdate fs p _

theorem prefix3_mimetype : ∀ pre ∈ prefixes3, ∀ nm : String,
    pre ++ nm = mimetypeStr → pre = blankStr ∧ nm = mimetypeStr := by
  intro pre hpre nm he
  have hd := congrArg String.data he
  rw [String.data_append] at hd
  have hmem : pre = epubPre ∨ pre = oebpsPre ∨ pre = blankStr := by
    simpa [prefixes3] using hpre
  rcases hmem with rfl | rfl | rfl
  · have h1 : (epubPre.data ++ nm.data).head? = some 'E' := rfl
    have h2 : mimetypeStr.data.head? = some 'm' := rfl
    have h3 := congrArg List.head? hd
    rw [h1, h2] at h3
    exact absurd h3 (by decide)
  · have h1 : (oebpsPre.data ++ nm.data).head? = some 'O' := rfl
    have h2 : mimetypeStr.data.head? = some 'm' := rfl
    have h3 := congrArg List.head? hd
    rw [h1, h2] at h3
    exact absurd h3 (by decide)
  · refine ⟨rfl, ?_⟩
    have h2 : nm.data = mimetypeStr.data := by simpa [blankStr] using hd
    exact congrArg String.mk h2

theorem notresolved_mimetype {fs : FTree} {names : List String}
    (hn : mimetypeStr ∉ names) :
    ∀ nm ∈ names, ∀ p, resolveItem fs nm = some p → mimetypeStr ≠ p := by
  intro nm hm p hp he
  obtain ⟨pre, hpre, rfl⟩ := resolveItem_shape hp
  obtain ⟨h1, h2⟩ := prefix3_mimetype pre hpre nm he.symm
  exact hn (h2 ▸ hm)

theorem findOpf_ne_mimetype {fs : FTree} :
    ∀ p, findOpf fs = some p → mimetypeStr ≠ p := by
  intro p hp he
  obtain ⟨pre, hpre⟩ := findOpf_isOpf hp
  rw [← he] at hpre
  have h3 : decide (opfExtStr.data <:+ mimetypeStr.data.drop pre.data.length) = true := by
    simp only [isOpfAt, Bool.and_eq_true] at hpre
    exact hpre.2
  have h4 : opfExtStr.data <:+ mimetypeStr.data :=
    (of_decide_eq_true h3).trans (List.drop_suffix _ _)
  exact absurd h4 (by decide)

theorem fread_fixPass_mimetype (fd fc fo : String → String)
    (docs styles : List String) (fs : FTree)
    (hd : mimetypeStr ∉ docs) (hs : mimetypeStr ∉ styles) :
    fread (fixPass fd fc fo docs styles fs) mimetypeStr = fread fs mimetypeStr := by
  have hcss : ∀ pre ∈ prefixes3, mimetypeStr ≠ pre ++ cssFileRel := by decide
  unfold fixPass
  rw [fread_fixOpfFile_ne fo _ _ findOpf_ne_mimetype,
    fread_injectCss_ne _ _ hcss,
    fread_fixItems_notin fc styles _ _ (notresolved_mimetype hs),
    fread_fixItems_notin fd docs fs _ (notresolved_mimetype hd)]

theorem fread_mem {fs : FTree} {p c : String} (h : fread fs p = some c) :
    ∃ e ∈ fs, e.1 = p := by
  unfold fread at h
  rcases e : fs.find? (fun e => decide (e.1 = p)) with _ | ent
  · rw [e] at h; cases h
  · have hp := List.find?_some e
    have hp2 : decide (ent.1 = p) = true := hp
    exact ⟨ent, List.mem_of_find?_eq_some e, of_decide_eq_true hp2⟩

theorem baseName_mimetype : baseName mimetypeStr = mimetypeStr := by decide

theorem baseName_cssPath : ∀ pre ∈ prefixes3,
    ¬ baseName (pre ++ cssFileRel) = mimetypeStr := by decide

theorem length_filter_basename (g : FTree)
    (hwf : ∀ q ∈ g.map Prod.fst, baseName q = mimetypeStr → q = mimetypeStr) :
    (g.filter (fun e => !decide (baseName e.1 = mimetypeStr))).length
      = (g.filter (fun e => !decide (e.1 = mimetypeStr))).length := by
  have heq : g.filter (fun e => !decide (baseName e.1 = mimetypeStr))
      = g.filter (fun e => !decide (e.1 = mimetypeStr)) := by
    apply List.filter_congr
    intro e he
    have hiff : baseName e.1 = mimetypeStr ↔ e.1 = mimetypeStr := by
      constructor
      · exact hwf e.1 (List.mem_map_of_mem Prod.fst he)
      · intro hh; rw [hh]; exact baseName_mimetype
    rw [decide_eq_decide.mpr hiff]
  rw [heq]

theorem length_filter_ne_key : ∀ (g : FTree), (g.map Prod.fst).Nodup →
    (∃ e ∈ g, e.1 = mimetypeStr) →
    (g.filter (fun e => !decide (e.1 = mimetypeStr))).length = g.length - 1
  | [], _, hmem => by
    obtain ⟨e, he, _⟩ := hmem
    exact absurd he (List.not_mem_nil e)
  | e :: g, hnd, hmem => by
    have hnd2 : e.1 ∉ g.map Prod.fst ∧ (g.map Prod.fst).Nodup :=
      List.nodup_cons.mp (by simpa using hnd)
    by_cases h1 : e.1 = mimetypeStr
    · rw [List.filter_cons_of_neg (by simp [h1])]
      have hall : ∀ a ∈ g, (!decide (a.1 = mimetypeStr)) = true := by
        intro a ha
        have hmm : a.1 ∈ g.map Prod.fst := List.mem_map_of_mem Prod.fst ha
        have hne : ¬ a.1 = mimetypeStr := by
          intro hh
          exact hnd2.1 (by rw [h1, ← hh]; exact hmm)
        simp [hne]
      rw [List.filter_eq_self.mpr hall]
      simp
    · rw [List.filter_cons_of_pos (by simp [h1])]
      have hmem' : ∃ e' ∈ g, e'.1 = mimetypeStr := by
        obtain ⟨e', he', hk⟩ := hmem
        rcases List.mem_cons.mp he' with rfl | hmm
        · exact absurd hk h1
        · exact ⟨e', hmm, hk⟩
      have hlen : 1 ≤ g.length := by
        obtain ⟨e', he', _⟩ := hmem'
        exact List.length_pos.mpr (List.ne_nil_of_mem he')
      simp only [List.length_cons]
      rw [length_filter_ne_key g hnd2.2 hmem']
      omega

theorem length_repack (g : FTree) (m : String) (hm : fread g mimetypeStr = some m)
    (hwf : ∀ q ∈ g.map Prod.fst, baseName q = mimetypeStr → q = mimetypeStr)
    (hnd : (g.map Prod.fst).Nodup) :
    (repack g).length = g.length := by
  have hmem := fread_mem hm
  have hlen : 1 ≤ g.length := by
    obtain ⟨e, he, _⟩ := hmem
    exact List.length_pos.mpr (List.ne_nil_of_mem he)
  unfold repack
  rw [hm, List.length_append, List.length_map, length_filter_basename g hwf,
    length_filter_ne_key g hnd hmem]
  simp only [List.length_singleton]
  omega

theorem fexists_congr {fs fs' : FTree}
    (h : fs'.map Prod.fst = fs.map Prod.fst) (q : String) :
    fexists fs' q = fexists fs q := by
  rw [fexists_eq_any_fst, fexists_eq_any_fst, h]

theorem length_fixPass (fd fc fo : String → String) (docs styles : List String)
    (fs : FTree) :
    (fixPass fd fc fo docs styles fs).length
      = fs.length + (match findStyleDir fs with
          | some pre => if fexists fs (pre ++ cssFileRel) then 0 else 1
          | none => 0) := by
  have hmap : (fixItems fc (fixItems fd fs docs) styles).map Prod.fst
      = fs.map Prod.fst :=
    (map_fst_fixItems fc styles _).trans (map_fst_fixItems fd docs fs)
  unfold fixPass
  rw [length_fixOpfFile, length_injectCss, length_fixItems fc styles,
    length_fixItems fd docs, findStyleDir_congr hmap]
  rcases findStyleDir fs with _ | pre
  · rfl
  · simp only [fexists_congr hmap]

theorem map_fst_fixPass (fd fc fo : String → String) (docs styles : List String)
    (fs : FTree) :
    (fixPass fd fc fo docs styles fs).map Prod.fst = fs.map Prod.fst
    ∨ ∃ pre ∈ prefixes3, fexists fs (pre ++ cssFileRel) = false
        ∧ (fixPass fd fc fo docs styles fs).map Prod.fst
            = fs.map Prod.fst ++ [pre ++ cssFileRel] := by
  have hmap : (fixItems fc (fixItems fd fs docs) styles).map Prod.fst
      = fs.map Prod.fst :=
    (map_fst_fixItems fc styles _).trans (map_fst_fixItems fd docs fs)
  unfold fixPass
  rw [map_fst_fixOpfFile]
  rcases e : findStyleDir (fixItems fc (fixItems fd fs docs) styles) with _ | pre
  · rw [show injectCss (fixItems fc (fixItems fd fs docs) styles)
        = fixItems fc (fixItems fd fs docs) styles from by
      unfold injectCss; rw [e]]
    exact Or.inl hmap
  · have hpre : pre ∈ prefixes3 := List.mem_of_find?_eq_some e
    rw [show injectCss (fixItems fc (fixItems fd fs docs) styles)
        = fwrite (fixItems fc (fixItems fd fs docs) styles)
            (pre ++ cssFileRel) get_fix_css from by
      unfold injectCss; rw [e]]
    by_cases hex : fexists (fixItems fc (fixItems fd fs docs) styles)
        (pre ++ cssFileRel) = true
    · left
      unfold fwrite
      rw [if_pos hex, map_fst_fupdate]
      exact hmap
    · right
      have hb : fexists (fixItems fc (fixItems fd fs docs) styles)
          (pre ++ cssFileRel) = false := by
        cases hx : fexists (fixItems fc (fixItems fd fs docs) styles)
            (pre ++ cssFileRel)
        · rfl
        · exact absurd hx hex
      refine ⟨pre, hpre, ?_, ?_⟩
      · rw [← fexists_congr hmap (pre ++ cssFileRel)]
        exact hb
      · unfold fwrite
        rw [if_neg hex, List.map_append, hmap]
        rfl

/-- C2: serialization writes the marker entry first, stored (uncompressed)
and byte-identical to the input tree's marker entry, and every other entry
compressed.  (Hypotheses: the marker exists and the manifest does not list
`mimetype` itself as a document or stylesheet item.) -/
theorem C2_serialization (fd fc fo : String → String) (docs styles : List String)
    (fs : FTree) (m : String)
    (hd : mimetypeStr ∉ docs) (hs : mimetypeStr ∉ styles)
    (hm : fread fs mimetypeStr = some m) :
    ∃ rest, fix_epub_files fd fc fo docs styles fs
        = ZEntry.mk mimetypeStr m true :: rest
      ∧ ∀ e ∈ rest, e.stored = false := by
  unfold fix_epub_files repack
  rw [fread_fixPass_mimetype fd fc fo docs styles fs hd hs, hm]
  refine ⟨_, rfl, ?_⟩
  intro e he
  obtain ⟨x, _, rfl⟩ := List.mem_map.mp he
  rfl

def mtContent : String := "application/epub+zip"
def demoOpfPath : String := "OEBPS/content.opf"
def demoOpfData : String := "<package/>"
def demoImgPath : String := "OEBPS/images/cover.png"
def demoImgData : String := "PNG"
def demoCssPath : String := "OEBPS/style/main.css"
def demoCssData : String := "body \x7b color: red \x7d"
def idFun : String → String := fun s => s

def demoTree : FTree :=
  [(mimetypeStr, mtContent), (demoOpfPath, demoOpfData), (demoImgPath, demoImgData)]

def demoTree2 : FTree :=
  [(mimetypeStr, mtContent), (demoOpfPath, demoOpfData),
   (demoCssPath, demoCssData), (demoImgPath, demoImgData)]

theorem C2_serialization_witness :
    ∃ rest, fix_epub_files idFun idFun idFun [] [] demoTree
        = ZEntry.mk mimetypeStr mtContent true :: rest
      ∧ ∀ e ∈ rest, e.stored = false :=
  C2_serialization idFun idFun idFun [] [] demoTree mtContent
    (by decide) (by decide) (by decide)

/-- C1 counterexample: a package with no `style` directory under any known
container prefix.  The fix pass injects nothing — the output archive has
exactly as many entries as the input — even though no resource at the
override-stylesheet path existed before the pass, refuting "the resource
count increases by exactly one ... unless a resource at that path already
existed". -/
theorem C1_counterexample :
    (fix_epub_files idFun idFun idFun [] [] demoTree).length = demoTree.length
    ∧ (∀ pre ∈ prefixes3, fexists demoTree (pre ++ cssFileRel) = false) := by
  refine ⟨?_, ?_⟩ <;> decide

/-- C1 (amended): after one fix pass, every resource other than the resolved
document items, the resolved stylesheet items, the manifest (`.opf`) file and
the injected override stylesheet keeps byte-identical content; and the output
archive's entry count exceeds the input tree's by exactly one precisely when
a `style` directory exists under one of the known prefixes and no resource at
the override-stylesheet path existed before the pass — when no style
directory exists, nothing is injected and the count is unchanged; when the
file already exists it is overwritten and the count is unchanged. -/
theorem C1_amended (fd fc fo : String → String) (docs styles : List String)
    (fs : FTree) (m : String)
    (hd : mimetypeStr ∉ docs) (hs : mimetypeStr ∉ styles)
    (hm : fread fs mimetypeStr = some m)
    (hwf : ∀ q ∈ fs.map Prod.fst, baseName q = mimetypeStr → q = mimetypeStr)
    (hnd : (fs.map Prod.fst).Nodup) :
    (∀ p, p ∉ docs.filterMap (resolveItem fs) →
      p ∉ styles.filterMap (resolveItem fs) →
      (∀ pre ∈ prefixes3, p ≠ pre ++ cssFileRel) →
      (∀ pre, isOpfAt pre p = false) →
      fread (fixPass fd fc fo docs styles fs) p = fread fs p)
    ∧ (fix_epub_files fd fc fo docs styles fs).length
        = fs.length + (match findStyleDir fs with
            | some pre => if fexists fs (pre ++ cssFileRel) then 0 else 1
            | none => 0) := by
  constructor
  · intro p hd1 hs1 hcss hopf
    have hres1 : ∀ nm, resolveItem (fixItems fd fs docs) nm = resolveItem fs nm :=
      resolveItem_congr (fun q => fexists_fixItems fd docs fs q)
    have hOpf : ∀ q, findOpf (injectCss (fixItems fc (fixItems fd fs docs) styles))
        = some q → p ≠ q := by
      intro q hq he
      obtain ⟨pre, hpre⟩ := findOpf_isOpf hq
      rw [← he, hopf pre] at hpre
      cases hpre
    have hStyles : ∀ nm ∈ styles, ∀ q,
        resolveItem (fixItems fd fs docs) nm = some q → p ≠ q := by
      intro nm hnm q hq he
      rw [hres1 nm] at hq
      exact hs1 (he ▸ List.mem_filterMap.mpr ⟨nm, hnm, hq⟩)
    have hDocs : ∀ nm ∈ docs, ∀ q, resolveItem fs nm = some q → p ≠ q := by
      intro nm hnm q hq he
      exact hd1 (he ▸ List.mem_filterMap.mpr ⟨nm, hnm, hq⟩)
    unfold fixPass
    rw [fread_fixOpfFile_ne fo _ p hOpf, fread_injectCss_ne _ p hcss,
      fread_fixItems_notin fc styles _ p hStyles,
      fread_fixItems_notin fd docs fs p hDocs]
  · have hmg : fread (fixPass fd fc fo docs styles fs) mimetypeStr = some m := by
      rw [fread_fixPass_mimetype fd fc fo docs styles fs hd hs]
      exact hm
    rcases map_fst_fixPass fd fc fo docs styles fs with hcase | ⟨pre, hpre, hnex, hcase⟩
    · unfold fix_epub_files
      rw [length_repack _ m hmg (by rw [hcase]; exact hwf) (by rw [hcase]; exact hnd),
        length_fixPass]
    · unfold fix_epub_files
      have hwf2 : ∀ q ∈ (fixPass fd fc fo docs styles fs).map Prod.fst,
          baseName q = mimetypeStr → q = mimetypeStr := by
        intro q hq hb
        rw [hcase] at hq
        rcases List.mem_append.mp hq with h1 | h1
        · exact hwf q h1 hb
        · rw [List.mem_singleton.mp h1] at hb
          exact absurd hb (baseName_cssPath pre hpre)
      have hnd2 : ((fixPass fd fc fo docs styles fs).map Prod.fst).Nodup := by
        rw [hcase, List.nodup_append_comm]
        refine List.nodup_cons.mpr ⟨?_, hnd⟩
        intro hmm
        have hex := (fexists_iff_mem_fst fs (pre ++ cssFileRel)).mpr hmm
        rw [hnex] at hex
        cases hex
      rw [length_repack _ m hmg hwf2 hnd2, length_fixPass]

theorem C1_amended_witness :
    (∀ p, p ∉ ([] : List String).filterMap (resolveItem demoTree2) →
      p ∉ ([] : List String).filterMap (resolveItem demoTree2) →
      (∀ pre ∈ prefixes3, p ≠ pre ++ cssFileRel) →
      (∀ pre, isOpfAt pre p = false) →
      fread (fixPass idFun idFun idFun [] [] demoTree2) p = fread demoTree2 p)
    ∧ (fix_epub_files idFun idFun idFun [] [] demoTree2).length
        = demoTree2.length + (match findStyleDir demoTree2 with
            | some pre => if fexists demoTree2 (pre ++ cssFileRel) then 0 else 1
            | none => 0) :=
  C1_amended idFun idFun idFun [] [] demoTree2 mtContent
    (by decide) (by decide) (by decide) (by decide) (by decide)

/-- C8: the per-file fix operation is a total Boolean function of its
fallible externals: reading the input package and writing the output package
are `Except`-valued, the boundary match plays the role of the catch-all
`except`, and the operation returns `true` exactly when both succeed and
`false` on any failure — no exception escapes the boundary. -/
theorem fix_epub_boundary (readPkg : Except String FTree)
    (writePkg : List ZEntry → Except String Unit)
    (fd fc fo : String → String) (docs styles : List String) :
    (fix_epub readPkg writePkg fd fc fo docs styles = true
      ↔ ∃ fs, readPkg = Except.ok fs
          ∧ writePkg (fix_epub_files fd fc fo docs styles fs) = Except.ok ())
    ∧ (fix_epub readPkg writePkg fd fc fo docs styles = false
      ↔ ¬ ∃ fs, readPkg = Except.ok fs
          ∧ writePkg (fix_epub_files fd fc fo docs styles fs) = Except.ok ()) := by
  rcases readPkg with er | fs
  · simp [fix_epub]
  · rcases e2 : writePkg (fix_epub_files fd fc fo docs styles fs) with er2 | u
    · simp [fix_epub, e2]
    · cases u
      simp [fix_epub, e2]
